import Mathlib

/-!
Sitemap and blog-guide generator (`generate-sitemap.js`).

A shallow embedding of the build script: the page extractor, the post scanner with its
front-matter reader, the sitemap renderer and the ordering of the post listing.

JavaScript strings are modelled as lists of characters (`Str`).  Every character test the
script performs (`/`, `-`, `.`, quotes, brackets, `\w`, `\s`, line terminators) concerns a
character of the Basic Multilingual Plane, so reading a string character by character agrees
with reading it code unit by code unit.

Host facilities that the script calls but does not define are parameters of the model:
`localeCompare` (the host collation), the clock (`currentDate`, `today`), the parsing of a
date string (`parseDate`) and the file system (`readFile`, the directory listing).
-/

namespace GenerateSitemap

/-- A JavaScript string, as its sequence of characters. -/
abbrev Str := List Char

/-! ## String primitives -/

/-- The single-quote character. -/
def singleQuote : Char := Char.ofNat 39

/-- The method `s.startsWith(p)`. -/
def startsWith (s p : Str) : Bool := p.isPrefixOf s

/-- The method `s.endsWith(p)`. -/
def endsWith (s p : Str) : Bool := p.isSuffixOf s

/-- The method `s.replace(pat, rep)` with a string pattern: only the first occurrence is
replaced. -/
def replaceFirst (pat rep : Str) : Str → Str
  | [] => if pat = [] then rep else []
  | c :: cs =>
    if pat.isPrefixOf (c :: cs) then rep ++ (c :: cs).drop pat.length
    else c :: replaceFirst pat rep cs

/-- The method `s.split(sep)` for a one-character separator. -/
def splitChar (sep : Char) : Str → List Str
  | [] => [[]]
  | c :: cs =>
    if c = sep then [] :: splitChar sep cs
    else
      match splitChar sep cs with
      | [] => [[c]]
      | l :: ls => (c :: l) :: ls

/-- The call `s.slice(1, -1)`. -/
def slice1 (s : Str) : Str := (s.drop 1).dropLast

/-- The class `\w` of a regular expression without the unicode flag: `[A-Za-z0-9_]`. -/
def isWordChar (c : Char) : Bool :=
  (97 ≤ c.toNat && c.toNat ≤ 122) || (65 ≤ c.toNat && c.toNat ≤ 90) ||
  (48 ≤ c.toNat && c.toNat ≤ 57) || c.toNat = 95

/-- ECMAScript LineTerminator: LF, CR, LS, PS.  The regular-expression dot matches every
character but these. -/
def isLineTerminator (c : Char) : Bool :=
  c.toNat = 0x0A || c.toNat = 0x0D || c.toNat = 0x2028 || c.toNat = 0x2029

/-- The class `\s` of a regular expression, which is also what `trim()` removes: ECMAScript
WhiteSpace (TAB, VT, FF, SP, NBSP, ZWNBSP and the space separators) together with
LineTerminator. -/
def isSpaceChar (c : Char) : Bool :=
  c.toNat = 0x09 || c.toNat = 0x0B || c.toNat = 0x0C || c.toNat = 0x20 || c.toNat = 0xA0 ||
  c.toNat = 0x1680 || (0x2000 ≤ c.toNat && c.toNat ≤ 0x200A) || c.toNat = 0x202F ||
  c.toNat = 0x205F || c.toNat = 0x3000 || c.toNat = 0xFEFF || isLineTerminator c

/-- The method `s.trim()`. -/
def trim (s : Str) : Str :=
  ((s.dropWhile isSpaceChar).reverse.dropWhile isSpaceChar).reverse

/-- The call `l.toUpperCase()` for a one-character string `l` matched by `\w`: ASCII
upper-casing. -/
def toUpperWord (c : Char) : Char :=
  if 97 ≤ c.toNat ∧ c.toNat ≤ 122 then Char.ofNat (c.toNat - 32) else c

/-! ## Ordered sets and sorting -/

/-- The method `set.add(x)` on a `Set` kept as its list of members in insertion order. -/
def setAdd (s : List Str) (x : Str) : List Str :=
  if x ∈ s then s else s ++ [x]

/-- The expression `new Set(xs)` read back in insertion order (`[...new Set(xs)]`,
`Array.from(set)`). -/
def setOfList (xs : List Str) : List Str := xs.foldl setAdd []

/-- One insertion step of the stable sort: `x` goes before the first element it does not
compare greater than. -/
def sortInsert {α : Type} (comparefn : α → α → Int) (x : α) : List α → List α
  | [] => [x]
  | y :: ys =>
    if comparefn x y ≤ 0 then x :: y :: ys else y :: sortInsert comparefn x ys

/-- The method `Array.prototype.sort(comparefn)`.  ECMAScript fixes the result for a consistent
comparator: the stable sorted arrangement, which is what this insertion sort computes.  (For
an inconsistent comparator the order is implementation-defined and the model is one admissible
choice.) -/
def arraySort {α : Type} (comparefn : α → α → Int) : List α → List α
  | [] => []
  | x :: xs => sortInsert comparefn x (arraySort comparefn xs)

/-- What ECMAScript requires of `String.prototype.localeCompare` seen as a function of two
strings: a consistent comparator that defines a total ordering. -/
structure ConsistentComparator (cmp : Str → Str → Int) : Prop where
  refl : ∀ a, cmp a a = 0
  antisymm : ∀ a b, cmp a b < 0 ↔ 0 < cmp b a
  trans : ∀ a b c, cmp a b ≤ 0 → cmp b c ≤ 0 → cmp a c ≤ 0

/-- A concrete consistent comparator: comparison of the character sequences. -/
def codePointCompare (a b : Str) : Int :=
  if a < b then -1 else if b < a then 1 else 0

/-! ## Page extractor -/

/-- A navigation group: `{ pages: [...] }`. -/
structure Group where
  pages : List Str
  deriving DecidableEq

/-- A navigation tab: `{ groups: [...] }`. -/
structure Tab where
  groups : List Group
  deriving DecidableEq

/-- The `navigation` object: `{ tabs: [...] }`. -/
structure Navigation where
  tabs : List Tab
  deriving DecidableEq

/-- The parsed `docs.json`. -/
structure DocsConfig where
  navigation : Navigation
  deriving DecidableEq

/-- Body of the innermost `forEach`: `pages.add('/' + page.replace('/index', ''))`. -/
def addPage (pages : List Str) (page : Str) : List Str :=
  setAdd pages ('/' :: replaceFirst "/index".toList [] page)

/-- The function `extractPagesFromDocs(docsConfig)`. -/
def extractPagesFromDocs (docsConfig : DocsConfig) : List Str :=
  docsConfig.navigation.tabs.foldl
    (fun pages tab =>
      tab.groups.foldl (fun pages group => group.pages.foldl addPage pages) pages)
    (setAdd [] "/".toList)

/-- Every page string reachable through tabs, groups and pages, in traversal order. -/
def navPages (docsConfig : DocsConfig) : List Str :=
  docsConfig.navigation.tabs.flatMap (fun tab => tab.groups.flatMap (fun group => group.pages))

/-! ## Sitemap renderer -/

/-- The function `getPriority(url)`. -/
def getPriority (url : Str) : Str :=
  if url = "/".toList then "1.00".toList
  else if startsWith url "/blog/".toList && url != "/blog".toList then "0.64".toList
  else if url = "/blog".toList then "0.80".toList
  else "0.80".toList

/-- The comparator handed to `pages.sort` in `generateSitemap`. -/
def pageCompare (localeCompare : Str → Str → Int) (a b : Str) : Int :=
  if a = "/".toList then -1
  else if b = "/".toList then 1
  else localeCompare a b

/-- The variable `sortedPages` of `generateSitemap`. -/
def sortPages (localeCompare : Str → Str → Int) (pages : List Str) : List Str :=
  arraySort (pageCompare localeCompare) pages

/-- The constant `BASE_URL`. -/
def BASE_URL : Str := "https://www.fastapps.org".toList

/-- The opening of the document, up to the first `<url>` block. -/
def sitemapHeader (currentDate : Str) : Str :=
  "<?xml version=\"1.0\" encoding=\"UTF-8\"?>\n<urlset\n      xmlns=\"http://www.sitemaps.org/schemas/sitemap/0.9\"\n      xmlns:xsi=\"http://www.w3.org/2001/XMLSchema-instance\"\n      xsi:schemaLocation=\"http://www.sitemaps.org/schemas/sitemap/0.9\n            http://www.sitemaps.org/schemas/sitemap/0.9/sitemap.xsd\">\n<!-- Auto-generated sitemap - Generated on ".toList
    ++ currentDate ++ " -->\n\n\n".toList

/-- One `<url>` block. -/
def urlBlock (currentDate page : Str) : Str :=
  "<url>\n  <loc>".toList ++ BASE_URL ++ page ++ "</loc>\n  <lastmod>".toList ++ currentDate
    ++ "</lastmod>\n  <priority>".toList ++ getPriority page ++ "</priority>\n</url>\n".toList

/-- The closing of the document. -/
def sitemapFooter : Str := "\n\n\n</urlset>".toList

/-- The function `generateSitemap(pages)`; `currentDate` is the value of `getCurrentDate()`. -/
def generateSitemap (localeCompare : Str → Str → Int) (currentDate : Str)
    (pages : List Str) : Str :=
  (sortPages localeCompare pages).foldl
    (fun sitemap page => sitemap ++ urlBlock currentDate page) (sitemapHeader currentDate)
    ++ sitemapFooter

/-- The variable `uniquePages` of `main`: the navigation pages followed by the post URLs, without
repetitions. -/
def uniquePages (docPages blogPageUrls : List Str) : List Str :=
  setOfList (docPages ++ blogPageUrls)

/-! ## Front-matter parser -/

/-- A metadata value: a plain string or an array of strings. -/
inductive Value where
  | str (s : Str)
  | arr (items : List Str)
  deriving DecidableEq

/-- The `metadata` object, as its own properties in order of creation. -/
abbrev Metadata := List (Str × Value)

/-- Reading `metadata.key` (`none` is `undefined`). -/
def Metadata.get (m : Metadata) (key : Str) : Option Value :=
  match m with
  | [] => none
  | (k, v) :: rest => if k = key then some v else Metadata.get rest key

/-- Writing an own property: an existing key keeps its place and takes the new value. -/
def Metadata.set (m : Metadata) (key : Str) (value : Value) : Metadata :=
  match m with
  | [] => [(key, value)]
  | (k, v) :: rest =>
    if k = key then (k, value) :: rest else (k, v) :: Metadata.set rest key value

/-- The assignment `metadata[key] = value`.  On an object literal the key `__proto__` is the
accessor inherited from `Object.prototype`: assigning to it creates no property. -/
def Metadata.assign (m : Metadata) (key : Str) (value : Value) : Metadata :=
  if key = "__proto__".toList then m else m.set key value

/-- The lazy group `([\s\S]*?)` followed by `\n---`: the shortest prefix of `s` after which
`\n---` stands. -/
def lazyUntilClose : Str → Option Str
  | [] => none
  | c :: cs =>
    if "\n---".toList.isPrefixOf (c :: cs) then some []
    else (lazyUntilClose cs).map (fun g => c :: g)

/-- Backtracking of the greedy `\s*` in the pattern `^---\s*\n([\s\S]*?)\n---`: `rest` is the
content after the opening `---`; `openBlock rest n` tries the `\s*` with `n - 1` characters,
then `n - 2`, down to none, each time requiring `\n` to follow and the remainder of the
pattern to match. -/
def openBlock (rest : Str) : Nat → Option Str
  | 0 => none
  | k + 1 =>
    if (rest.drop k).head? = some '\n' then
      match lazyUntilClose (rest.drop (k + 1)) with
      | some g => some g
      | none => openBlock rest k
    else openBlock rest k

/-- First group of `content.match(...)` for the pattern `^---\s*\n([\s\S]*?)\n---`, or `none`
when the content does not match. The greedy `\s*` first takes the whole run of white space (at
that length no `\n` can follow, the next character not being white space). -/
def frontmatterMatch (content : Str) : Option Str :=
  if "---".toList.isPrefixOf content then
    let rest := content.drop 3
    openBlock rest (rest.takeWhile isSpaceChar).length
  else none

/-- The tail `(.+)$` of the line pattern: the whole remainder, non-empty and free of line
terminators. -/
def dotPlusToEnd (s : Str) : Option Str :=
  if s ≠ [] ∧ s.all (fun c => !isLineTerminator c) = true then some s else none

/-- Backtracking of the greedy `\s*` in `:\s*(.+)$`: the `\s*` is tried with `k` characters,
then `k - 1`, down to none. -/
def valueAfterColon (rest : Str) : Nat → Option Str
  | 0 => dotPlusToEnd rest
  | k + 1 =>
    match dotPlusToEnd (rest.drop (k + 1)) with
    | some v => some v
    | none => valueAfterColon rest k

/-- Groups 1 and 2 of `line.match(/^(\w+):\s*(.+)$/)`.  The greedy `\w+` takes the whole run
of word characters (a shorter key would have to be followed by `:`, which is not a word
character). -/
def lineMatch (line : Str) : Option (Str × Str) :=
  let key := line.takeWhile isWordChar
  match line.dropWhile isWordChar with
  | ':' :: rest =>
    if key = [] then none
    else (valueAfterColon rest (rest.takeWhile isSpaceChar).length).map (fun v => (key, v))
  | _ => none

/-- The quote-removal step: a value that starts and ends with `"`, or starts and ends with
the single quote, loses its first and last character. -/
def unquote (value : Str) : Str :=
  if (startsWith value ['"'] && endsWith value ['"']) ||
     (startsWith value [singleQuote] && endsWith value [singleQuote]) then slice1 value
  else value

/-- The call `item.replace(/^["']|["']$/g, '')`: a quote at the start is removed, and a quote at the
end of what remains is removed. -/
def stripEdgeQuotes (item : Str) : Str :=
  let t := match item with
    | c :: cs => if c = '"' ∨ c = singleQuote then cs else c :: cs
    | [] => []
  match t.getLast? with
  | some c => if c = '"' ∨ c = singleQuote then t.dropLast else t
  | none => t

/-- The value stored for a trimmed capture: quote removal, then the array step. -/
def parseValue (value : Str) : Value :=
  let value := unquote value
  if startsWith value ['['] && endsWith value [']'] then
    Value.arr ((splitChar ',' (slice1 value)).map (fun item => stripEdgeQuotes (trim item)))
  else Value.str value

/-- Body of `lines.forEach` in `extractMetadata`. -/
def processLine (metadata : Metadata) (line : Str) : Metadata :=
  match lineMatch line with
  | some (key, raw) => metadata.assign key (parseValue (trim raw))
  | none => metadata

/-- The function `extractMetadata(content)`. -/
def extractMetadata (content : Str) : Metadata :=
  match frontmatterMatch content with
  | some frontmatter => (splitChar '\n' frontmatter).foldl processLine []
  | none => []

/-! ## Post scanner -/

/-- A post record.  `slug` and `url` are strings; the other fields hold whatever the front
matter gave, a string or an array. -/
structure PostRecord where
  slug : Str
  url : Str
  title : Value
  description : Value
  date : Value
  author : Value
  tags : Value
  image : Value
  deriving DecidableEq

/-- The expression `m || d` for a metadata lookup `m`: `undefined` and the empty string are
falsy, every other string and every array is truthy. -/
def orDefault (m : Option Value) (d : Value) : Value :=
  match m with
  | none => d
  | some (Value.str []) => d
  | some v => v

/-- Replacement of every hyphen by a space (`replace` with the global pattern `-`). -/
def hyphensToSpaces (s : Str) : Str := s.map (fun c => if c = '-' then ' ' else c)

/-- The call `s.replace(/\b\w/g, l => l.toUpperCase())`: a word character is upper-cased when the
character before it is not a word character or when it starts the string.  `prevWord` tells
whether the preceding character was a word character. -/
def capitalizeFrom (prevWord : Bool) : Str → Str
  | [] => []
  | c :: cs =>
    (if isWordChar c && !prevWord then toUpperWord c else c) :: capitalizeFrom (isWordChar c) cs

/-- The title fallback: hyphens to spaces, then `replace(/\b\w/g, l => l.toUpperCase())`. -/
def humanizeSlug (slug : Str) : Str := capitalizeFrom false (hyphensToSpaces slug)

/-- The record pushed in the `catch` branch. -/
def fallbackRecord (today slug : Str) : PostRecord :=
  { slug := slug
    url := "/blog/".toList ++ slug
    title := Value.str (humanizeSlug slug)
    description := Value.str []
    date := Value.str today
    author := Value.str "FastApps Team".toList
    tags := Value.arr []
    image := Value.str "/images/default-blog.png".toList }

/-- The record pushed when the file was read. -/
def metadataRecord (today slug : Str) (metadata : Metadata) : PostRecord :=
  { slug := slug
    url := "/blog/".toList ++ slug
    title := orDefault (metadata.get "title".toList) (Value.str (humanizeSlug slug))
    description := orDefault (metadata.get "description".toList) (Value.str [])
    date := orDefault (metadata.get "publishDate".toList)
      (orDefault (metadata.get "date".toList) (Value.str today))
    author := orDefault (metadata.get "author".toList) (Value.str "FastApps Team".toList)
    tags := orDefault (metadata.get "tags".toList) (Value.arr [])
    image := orDefault (metadata.get "image".toList) (Value.str "/images/default-blog.png".toList) }

/-- The test of the `if` in `files.forEach`. -/
def isPostFile (file : Str) : Bool :=
  endsWith file ".mdx".toList && file != "index.mdx".toList

/-- Body of `files.forEach`.  `readFile file` is the outcome of `fs.readFileSync` on the
file of that name in the blog directory: its content, or `none` when the read throws. -/
def scanFile (readFile : Str → Option Str) (today : Str) (blogPosts : List PostRecord)
    (file : Str) : List PostRecord :=
  if isPostFile file then
    let slug := replaceFirst ".mdx".toList [] file
    match readFile file with
    | some content => blogPosts ++ [metadataRecord today slug (extractMetadata content)]
    | none => blogPosts ++ [fallbackRecord today slug]
  else blogPosts

/-- The function `scanBlogPosts()`. `listing` is the outcome of `fs.readdirSync(BLOG_DIR)`
(`none` when it throws) and `today` is `new Date().toISOString().split('T')[0]`. -/
def scanBlogPosts (listing : Option (List Str)) (readFile : Str → Option Str)
    (today : Str) : List PostRecord :=
  match listing with
  | some files => files.foldl (scanFile readFile today) []
  | none => []

/-! ## Guide renderer: order of the listing -/

/-- The method `Array.prototype.join(sep)` on an array of strings. -/
def joinWith (sep : Str) : List Str → Str
  | [] => []
  | [s] => s
  | s :: t :: rest => s ++ sep ++ joinWith sep (t :: rest)

/-- The string handed to the date parser by `new Date(value)`: a string as it is, an array
through its `toString()`. -/
def dateString (value : Value) : Str :=
  match value with
  | Value.str s => s
  | Value.arr items => joinWith [','] items

/-- The time value of `new Date(post.date)`; `parseDate` is the host's parsing of a date
string, `none` standing for an invalid date (`NaN`). -/
def postTime (parseDate : Str → Option Int) (post : PostRecord) : Option Int :=
  parseDate (dateString post.date)

/-- The comparator `(a, b) => new Date(b.date) - new Date(a.date)`; a `NaN` difference is
read by `sort` as `+0`. -/
def dateCompare (parseDate : Str → Option Int) (a b : PostRecord) : Int :=
  match postTime parseDate b, postTime parseDate a with
  | some tb, some ta => tb - ta
  | _, _ => 0

/-- The variable `sortedPosts` of `updateReadmeBlog`, the sequence its `forEach` renders in
order. -/
def sortedPosts (parseDate : Str → Option Int) (blogPosts : List PostRecord) :
    List PostRecord :=
  arraySort (dateCompare parseDate) blogPosts

/-- Value of a decimal digit. -/
def digitValue (c : Char) : Option Nat :=
  if 48 ≤ c.toNat ∧ c.toNat ≤ 57 then some (c.toNat - 48) else none

/-- Days in a month of the proleptic Gregorian calendar. -/
def daysInMonth (y m : Nat) : Nat :=
  if m = 2 then (if (y % 4 = 0 ∧ y % 100 ≠ 0) ∨ y % 400 = 0 then 29 else 28)
  else if m = 4 ∨ m = 6 ∨ m = 9 ∨ m = 11 then 30 else 31

/-- Days from 1970-01-01 to the given civil date. -/
def daysFromCivil (y m d : Nat) : Int :=
  let y1 : Int := if m ≤ 2 then (y : Int) - 1 else y
  let era : Int := y1 / 400
  let yoe : Int := y1 - era * 400
  let mp : Int := if m ≤ 2 then (m : Int) + 9 else (m : Int) - 3
  let doy : Int := (153 * mp + 2) / 5 + (d : Int) - 1
  let doe : Int := yoe * 365 + yoe / 4 - yoe / 100 + doy
  era * 146097 + doe - 719468

/-- The date-only form `YYYY-MM-DD` of the ECMAScript date-time string format, read as UTC
midnight in milliseconds, for a valid calendar date.  ECMAScript fixes the parse of these
strings; other strings are left to the host. -/
def isoDateOnly (s : Str) : Option Int :=
  match s with
  | [y1, y2, y3, y4, '-', m1, m2, '-', d1, d2] =>
    match digitValue y1, digitValue y2, digitValue y3, digitValue y4,
          digitValue m1, digitValue m2, digitValue d1, digitValue d2 with
    | some a, some b, some c, some d, some e, some f, some g, some h =>
      let y := 1000 * a + 100 * b + 10 * c + d
      let m := 10 * e + f
      let dd := 10 * g + h
      if 1 ≤ m ∧ m ≤ 12 ∧ 1 ≤ dd ∧ dd ≤ daysInMonth y m then
        some (daysFromCivil y m dd * 86400000)
      else none
    | _, _, _, _, _, _, _, _ => none
  | _ => none

/-! ## The specification's wording, for comparison with the code -/

/-- A string wrapped in `first` and `last`: it starts with `first` and, after that first
character, ends with `last`. -/
def isWrapped (first last : Char) (value : Str) : Prop :=
  value.head? = some first ∧ value.tail.getLast? = some last

instance (a b : Char) (value : Str) : Decidable (isWrapped a b value) := by
  unfold isWrapped
  exact inferInstance

/-- The specification's quote step: "strip one matching pair of surrounding double or single
quotes, if present". -/
def specUnquote (value : Str) : Str :=
  if isWrapped '"' '"' value ∨ isWrapped singleQuote singleQuote value then
    value.tail.dropLast
  else value

/-- The specification's value: after the quote step, a value wrapped in `[` `]` is split on
commas, each element trimmed and freed of surrounding quotes; any other value stays a plain
string. -/
def specValue (value : Str) : Value :=
  if isWrapped '[' ']' (specUnquote value) then
    Value.arr ((splitChar ',' (specUnquote value).tail.dropLast).map
      (fun item => stripEdgeQuotes (trim item)))
  else Value.str (specUnquote value)

/-- The lines of the content that consist of exactly `---`. -/
def delimiterLines (content : Str) : List Str :=
  (splitChar '\n' content).filter (fun line => line = "---".toList)

/-- The specification's block: a line consisting of exactly `---` and a later line consisting
of exactly `---`. -/
def hasDelimitedBlock (content : Str) : Prop := 2 ≤ (delimiterLines content).length

instance (content : Str) : Decidable (hasDelimitedBlock content) := by
  unfold hasDelimitedBlock
  exact inferInstance

/-- Upper-casing of the first letter of a word. -/
def capitalizeFirst : Str → Str
  | [] => []
  | c :: cs => toUpperWord c :: cs

/-- The specification's title: "the slug with hyphens replaced by spaces and each word's
first letter capitalized", the words being the pieces between spaces. -/
def specTitle (slug : Str) : Str :=
  joinWith [' '] ((splitChar ' ' (hyphensToSpaces slug)).map capitalizeFirst)

/-- The record the scan holds for a post file: built from the metadata when the file is read,
from the fallback values when the read fails. -/
def postRecord (readFile : Str → Option Str) (today file : Str) : PostRecord :=
  match readFile file with
  | some content =>
    metadataRecord today (replaceFirst ".mdx".toList [] file) (extractMetadata content)
  | none => fallbackRecord today (replaceFirst ".mdx".toList [] file)

/-! ## Guide renderer: the listing -/

/-- The string a value turns into inside a template literal: a string as it is, an array
through its `toString()`. -/
def valueToString (value : Value) : Str :=
  match value with
  | Value.str s => s
  | Value.arr items => joinWith [','] items

/-- Truthiness of a value: only the empty string is falsy. -/
def isTruthy (value : Value) : Bool :=
  match value with
  | Value.str [] => false
  | _ => true

/-- The lines added for the tags.  Nothing is added when the test
`post.tags && post.tags.length > 0` fails; an array gives its elements joined with `, `; a
non-empty string passes the test and has no `join` method, so the call throws a `TypeError`
(`none`). -/
def renderTags (tags : Value) : Option Str :=
  match tags with
  | Value.str [] => some []
  | Value.str _ => none
  | Value.arr [] => some []
  | Value.arr items => some ("   - **Tags**: ".toList ++ joinWith ", ".toList items ++ ['\n'])

/-- Body of `sortedPosts.forEach`: the text added for the post at position `index`, or `none`
when it throws.  `formatDate` is the host's `toLocaleDateString` of the date parsed from a
string. -/
def renderPost (formatDate : Str → Str) (index : Nat) (post : PostRecord) : Option Str :=
  match renderTags post.tags with
  | none => none
  | some tagLines =>
    some ((Nat.repr (index + 1)).toList ++ ". **".toList ++ valueToString post.title
      ++ "**\n".toList
      ++ "   - **URL**: `".toList ++ post.url ++ "`\n".toList
      ++ "   - **Date**: ".toList ++ formatDate (dateString post.date) ++ ['\n']
      ++ "   - **Author**: ".toList ++ valueToString post.author ++ ['\n']
      ++ tagLines
      ++ (if isTruthy post.description then
            "   - **Description**: ".toList ++ valueToString post.description ++ ['\n']
          else [])
      ++ ['\n'])

/-- The loop `sortedPosts.forEach` from position `index` on: the entries in order, or `none`
as soon as one of them throws. -/
def renderPosts (formatDate : Str → Str) : Nat → List PostRecord → Option Str
  | _, [] => some []
  | index, post :: rest =>
    match renderPost formatDate index post with
    | none => none
    | some entry => (renderPosts formatDate (index + 1) rest).map (fun more => entry ++ more)

/-- The section of the guide that lists the posts. -/
def postListing (formatDate : Str → Str) (sorted : List PostRecord) : Option Str :=
  if sorted.length > 0 then
    (renderPosts formatDate 0 sorted).map (fun entries =>
      "\n### 📝 Published Posts (".toList ++ (Nat.repr sorted.length).toList
        ++ " posts)\n\n".toList ++ entries)
  else some "\n### 📝 Published Posts\n\n*No blog posts found.*\n\n".toList

/-- The function `updateReadmeBlog(blogPosts)`, `none` standing for a thrown exception.
`guideText` is the fixed text of the guide that precedes the listing and `currentDate` the
formatted date of the run. -/
def updateReadmeBlog (parseDate : Str → Option Int) (formatDate : Str → Str)
    (guideText currentDate : Str) (blogPosts : List PostRecord) : Option Str :=
  (postListing formatDate (sortedPosts parseDate blogPosts)).map (fun listing =>
    guideText ++ listing
      ++ "\n---\n\n*This guide is continuously updated to maintain the quality and consistency of the FastApps blog. Last updated: ".toList
      ++ currentDate ++ ['*'])

/-! ## Further wording of the specification -/

/-- The format `YYYY-MM-DD`: four digits, a hyphen, two digits, a hyphen, two digits. -/
def isDateFormat (s : Str) : Bool :=
  match s with
  | [y1, y2, y3, y4, '-', m1, m2, '-', d1, d2] =>
    [y1, y2, y3, y4, m1, m2, d1, d2].all (fun c => (digitValue c).isSome)
  | _ => false

/-- The method `s.includes(pat)`: whether `pat` occurs in `s`. -/
def occursIn (pat : Str) : Str → Bool
  | [] => pat.isEmpty
  | c :: cs => pat.isPrefixOf (c :: cs) || occursIn pat cs

/-- The variable `cleanPath` of `extractPagesFromDocs`: `page.replace('/index', '')`. -/
def cleanPath (page : Str) : Str := replaceFirst "/index".toList [] page

/-- A navigation config with every page string replaced by its image under `f`. -/
def DocsConfig.mapPages (f : Str → Str) (docsConfig : DocsConfig) : DocsConfig :=
  ⟨⟨docsConfig.navigation.tabs.map (fun tab =>
      ⟨tab.groups.map (fun group => ⟨group.pages.map f⟩)⟩)⟩⟩

/-- Two arrays of paths hold the same set of paths. -/
def sameSet (a b : List Str) : Prop := ∀ y, y ∈ a ↔ y ∈ b

/-! ## A host collation, and reading the rendered texts back -/

/-- Folding of the ASCII upper-case letters to lower case. -/
def foldCase (s : Str) : Str :=
  s.map (fun c => if 65 ≤ c.toNat ∧ c.toNat ≤ 90 then Char.ofNat (c.toNat + 32) else c)

/-- A collation of the kind a host implements for `localeCompare`, given for strings of `/`,
digits and ASCII letters: the strings are first compared without regard to case, and two
strings that differ in case only are ordered by their first difference, lower case first (the
order of the root collation of the Unicode collation algorithm, under which `/b` comes before
`/B` and `/B` before `/Zeta`). -/
def collationCompare (a b : Str) : Int :=
  if foldCase a < foldCase b then -1
  else if foldCase b < foldCase a then 1
  else if b < a then -1
  else if a < b then 1
  else 0

/-- The contents of the `loc` elements of an XML text, in order: what follows each `<loc>` up
to the next `<`. -/
def locEntries (text : Str) : List Str :=
  (splitChar '<' text).filterMap
    (fun piece => if "loc>".toList.isPrefixOf piece then some (piece.drop 4) else none)

/-- The number of `<url>` tags of an XML text. -/
def urlBlockCount (text : Str) : Nat :=
  ((splitChar '<' text).filter (fun piece => "url>".toList.isPrefixOf piece)).length

/-- The url of a line of the guide of the form `   - **URL**: ` followed by the url between
backticks; `none` for any other line. -/
def urlOfLine (line : Str) : Option Str :=
  if "   - **URL**: `".toList.isPrefixOf line then some ((line.drop 15).dropLast) else none

/-- The urls listed in a guide text, in order of their lines. -/
def listedUrls (text : Str) : List Str := (splitChar '\n' text).filterMap urlOfLine

/-- A post whose entry in the listing can be rendered and read back line by line: its tags
are an array, as the data model has it, and no field written in the entry holds a newline. -/
def isListable (formatDate : Str → Str) (post : PostRecord) : Prop :=
  (∃ items, post.tags = Value.arr items ∧ '\n' ∉ joinWith ", ".toList items) ∧
    '\n' ∉ valueToString post.title ∧ '\n' ∉ post.url ∧
    '\n' ∉ formatDate (dateString post.date) ∧ '\n' ∉ valueToString post.author ∧
    '\n' ∉ valueToString post.description

/-- The lines of the entry of a post in the listing, for a post whose tags are an array: the
numbered title, the url, the date, the author, the tags when there are some, the description
when there is one, and an empty line. -/
def entryLines (formatDate : Str → Str) (index : Nat) (post : PostRecord) : List Str :=
  [(Nat.repr (index + 1)).toList ++ ". **".toList ++ valueToString post.title ++ "**".toList,
   "   - **URL**: `".toList ++ post.url ++ "`".toList,
   "   - **Date**: ".toList ++ formatDate (dateString post.date),
   "   - **Author**: ".toList ++ valueToString post.author]
  ++ (match post.tags with
      | Value.arr (t :: ts) => ["   - **Tags**: ".toList ++ joinWith ", ".toList (t :: ts)]
      | _ => [])
  ++ (if isTruthy post.description then
        ["   - **Description**: ".toList ++ valueToString post.description]
      else [])
  ++ [[]]

set_option maxRecDepth 20000

/-! ## Sets and sorting: basic facts -/

theorem mem_setAdd {s : List Str} {x y : Str} : y ∈ setAdd s x ↔ y ∈ s ∨ y = x := by
  unfold setAdd
  split
  · constructor
    · intro h; exact Or.inl h
    · rintro (h | h)
      · exact h
      · subst h; assumption
  · simp

theorem nodup_setAdd {s : List Str} (x : Str) (h : s.Nodup) : (setAdd s x).Nodup := by
  unfold setAdd
  split
  · exact h
  · rename_i hx
    rw [List.nodup_append]
    refine ⟨h, List.nodup_singleton x, ?_⟩
    intro a ha hb
    simp only [List.mem_singleton] at hb
    subst hb
    exact hx ha

theorem mem_foldl_setAdd (xs : List Str) (s : List Str) (y : Str) :
    y ∈ xs.foldl setAdd s ↔ y ∈ s ∨ y ∈ xs := by
  induction xs generalizing s with
  | nil => simp
  | cons x xs ih =>
    simp only [List.foldl_cons, ih, mem_setAdd, List.mem_cons]
    tauto

theorem nodup_foldl_setAdd (xs : List Str) (s : List Str) (h : s.Nodup) :
    (xs.foldl setAdd s).Nodup := by
  induction xs generalizing s with
  | nil => exact h
  | cons x xs ih => exact ih _ (nodup_setAdd x h)

theorem mem_setOfList {xs : List Str} {y : Str} : y ∈ setOfList xs ↔ y ∈ xs := by
  simp [setOfList, mem_foldl_setAdd]

theorem nodup_setOfList (xs : List Str) : (setOfList xs).Nodup :=
  nodup_foldl_setAdd xs [] List.nodup_nil

theorem count_eq_one_of_nodup_of_mem {l : List Str} {a : Str} (hl : l.Nodup) (ha : a ∈ l) :
    l.count a = 1 := by
  induction l with
  | nil => cases ha
  | cons b l ih =>
    rw [List.nodup_cons] at hl
    rw [List.count_cons]
    by_cases hb : b = a
    · subst hb
      have h0 : l.count b = 0 := List.count_eq_zero.mpr hl.1
      simp [h0]
    · have hmem : a ∈ l := by
        rcases List.mem_cons.mp ha with h | h
        · exact absurd h.symm hb
        · exact h
      have hne : (b == a) = false := by simpa using hb
      simp [ih hl.2 hmem, hne]

theorem sortInsert_eq_orderedInsert {α : Type} (cmp : α → α → Int) (x : α) (l : List α) :
    sortInsert cmp x l = List.orderedInsert (fun a b => cmp a b ≤ 0) x l := by
  induction l with
  | nil => rfl
  | cons y ys ih => simp only [sortInsert, List.orderedInsert, ih]

theorem arraySort_eq_insertionSort {α : Type} (cmp : α → α → Int) (l : List α) :
    arraySort cmp l = List.insertionSort (fun a b => cmp a b ≤ 0) l := by
  induction l with
  | nil => rfl
  | cons x xs ih => simp only [arraySort, List.insertionSort, ih, sortInsert_eq_orderedInsert]

theorem arraySort_perm {α : Type} (cmp : α → α → Int) (l : List α) :
    (arraySort cmp l).Perm l := by
  rw [arraySort_eq_insertionSort]
  exact List.perm_insertionSort _ l

theorem arraySort_sorted {α : Type} (cmp : α → α → Int)
    (htotal : ∀ a b, cmp a b ≤ 0 ∨ cmp b a ≤ 0)
    (htrans : ∀ a b c, cmp a b ≤ 0 → cmp b c ≤ 0 → cmp a c ≤ 0) (l : List α) :
    (arraySort cmp l).Pairwise (fun a b => cmp a b ≤ 0) := by
  rw [arraySort_eq_insertionSort]
  haveI : IsTotal α (fun a b => cmp a b ≤ 0) := ⟨htotal⟩
  haveI : IsTrans α (fun a b => cmp a b ≤ 0) := ⟨htrans⟩
  exact List.sorted_insertionSort (fun a b => cmp a b ≤ 0) l

theorem arraySort_stable {α : Type} (cmp : α → α → Int) {l c : List α}
    (hc : c.Pairwise (fun a b => cmp a b ≤ 0)) (hs : c.Sublist l) :
    c.Sublist (arraySort cmp l) := by
  rw [arraySort_eq_insertionSort]
  exact List.sublist_insertionSort hc hs

theorem ConsistentComparator.total {cmp : Str → Str → Int} (h : ConsistentComparator cmp)
    (a b : Str) : cmp a b ≤ 0 ∨ cmp b a ≤ 0 := by
  by_cases hab : cmp a b ≤ 0
  · exact Or.inl hab
  · right
    have h1 : 0 < cmp a b := by omega
    have h2 := (h.antisymm b a).mpr h1
    omega

theorem codePointCompare_consistent : ConsistentComparator codePointCompare where
  refl a := by simp [codePointCompare]
  antisymm a b := by
    unfold codePointCompare
    by_cases h1 : a < b
    · have h2 : ¬ b < a := lt_asymm h1
      simp [h1, h2]
    · by_cases h2 : b < a
      · simp [h1, h2]
      · simp [h1, h2]
  trans a b c := by
    unfold codePointCompare
    intro hab hbc
    have h1 : ¬ b < a := by
      intro h
      have : ¬ a < b := lt_asymm h
      simp [this, h] at hab
    have h2 : ¬ c < b := by
      intro h
      have : ¬ b < c := lt_asymm h
      simp [this, h] at hbc
    have h3 : ¬ c < a := by
      intro h
      exact h1 (lt_of_le_of_lt (not_lt.mp h2) h)
    by_cases h4 : a < c
    · simp [h4]
    · simp [h4, h3]

/-! ## Page extractor: membership and uniqueness -/

theorem mem_foldl_addPage (ps : List Str) (s : List Str) (y : Str) :
    y ∈ ps.foldl addPage s ↔
      y ∈ s ∨ ∃ p ∈ ps, y = '/' :: replaceFirst "/index".toList [] p := by
  induction ps generalizing s with
  | nil => simp
  | cons p ps ih =>
    simp only [List.foldl_cons, ih, addPage, mem_setAdd, List.mem_cons]
    constructor
    · rintro ((h | h) | ⟨q, hq, h⟩)
      · exact Or.inl h
      · exact Or.inr ⟨p, Or.inl rfl, h⟩
      · exact Or.inr ⟨q, Or.inr hq, h⟩
    · rintro (h | ⟨q, (hq | hq), h⟩)
      · exact Or.inl (Or.inl h)
      · subst hq; exact Or.inl (Or.inr h)
      · exact Or.inr ⟨q, hq, h⟩

theorem nodup_foldl_addPage (ps : List Str) (s : List Str) (h : s.Nodup) :
    (ps.foldl addPage s).Nodup := by
  induction ps generalizing s with
  | nil => exact h
  | cons p ps ih => exact ih _ (nodup_setAdd _ h)

theorem foldl_groups_eq (gs : List Group) (s : List Str) :
    gs.foldl (fun pages group => group.pages.foldl addPage pages) s =
      (gs.flatMap (fun group => group.pages)).foldl addPage s := by
  induction gs generalizing s with
  | nil => rfl
  | cons g gs ih => simp only [List.foldl_cons, List.flatMap_cons, List.foldl_append, ih]

theorem foldl_tabs_eq (ts : List Tab) (s : List Str) :
    ts.foldl (fun pages tab =>
        tab.groups.foldl (fun pages group => group.pages.foldl addPage pages) pages) s =
      (ts.flatMap (fun tab => tab.groups.flatMap (fun group => group.pages))).foldl addPage s := by
  induction ts generalizing s with
  | nil => rfl
  | cons t ts ih =>
    simp only [List.foldl_cons, List.flatMap_cons, List.foldl_append]
    rw [foldl_groups_eq]
    exact ih _

theorem extractPagesFromDocs_eq_foldl (docsConfig : DocsConfig) :
    extractPagesFromDocs docsConfig = (navPages docsConfig).foldl addPage ["/".toList] := by
  unfold extractPagesFromDocs navPages
  rw [foldl_tabs_eq]
  rfl

theorem mem_extractPagesFromDocs (docsConfig : DocsConfig) (y : Str) :
    y ∈ extractPagesFromDocs docsConfig ↔
      y = "/".toList ∨
        ∃ p ∈ navPages docsConfig, y = '/' :: replaceFirst "/index".toList [] p := by
  rw [extractPagesFromDocs_eq_foldl, mem_foldl_addPage]
  simp

theorem nodup_extractPagesFromDocs (docsConfig : DocsConfig) :
    (extractPagesFromDocs docsConfig).Nodup := by
  rw [extractPagesFromDocs_eq_foldl]
  exact nodup_foldl_addPage _ _ (List.nodup_singleton _)

/-! ## Sitemap renderer -/

theorem pageCompare_total {lc : Str → Str → Int} (h : ConsistentComparator lc) (a b : Str) :
    pageCompare lc a b ≤ 0 ∨ pageCompare lc b a ≤ 0 := by
  unfold pageCompare
  by_cases ha : a = ['/']
  · simp [ha]
  · by_cases hb : b = ['/']
    · simp [hb]
    · simp only [String.toList, ha, hb, if_false]
      exact h.total a b

theorem pageCompare_trans {lc : Str → Str → Int} (h : ConsistentComparator lc) (a b c : Str) :
    pageCompare lc a b ≤ 0 → pageCompare lc b c ≤ 0 → pageCompare lc a c ≤ 0 := by
  unfold pageCompare
  by_cases ha : a = ['/']
  · simp [ha]
  · by_cases hb : b = ['/']
    · simp [ha, hb]
    · by_cases hc : c = ['/']
      · simp [hb, hc]
      · simp only [String.toList, ha, hb, hc, if_false]
        exact h.trans a b c

theorem foldl_urlBlock (currentDate : Str) (ps : List Str) (acc : Str) :
    ps.foldl (fun sitemap page => sitemap ++ urlBlock currentDate page) acc =
      acc ++ (ps.map (urlBlock currentDate)).flatten := by
  induction ps generalizing acc with
  | nil => simp
  | cons p ps ih => simp [List.foldl_cons, ih, List.append_assoc]

/-! ## Claims on the sitemap renderer and the page extractor -/

/-- C2: for every navigation config and every list of scanned posts, the paths rendered in the
sitemap (the extracted pages followed by the post URLs, deduplicated as in `main`, then sorted
as in `generateSitemap`) contain no duplicates, whatever the collation. -/
theorem sitemap_paths_nodup (localeCompare : Str → Str → Int) (docsConfig : DocsConfig)
    (blogPosts : List PostRecord) :
    (sortPages localeCompare
      (uniquePages (extractPagesFromDocs docsConfig)
        (blogPosts.map (fun post => post.url)))).Nodup :=
  (arraySort_perm _ _).nodup_iff.mpr (nodup_setOfList _)

/-- C3: `getPriority` gives `1.00` to the root path, `0.64` to every path that begins with
`/blog/` (such a path is never `/blog`), and `0.80` to every other path, `/blog` included. -/
theorem getPriority_cases (u : Str) :
    (u = "/".toList → getPriority u = "1.00".toList) ∧
      ("/blog/".toList <+: u → getPriority u = "0.64".toList) ∧
      (u ≠ "/".toList → ¬ "/blog/".toList <+: u → getPriority u = "0.80".toList) ∧
      getPriority "/blog".toList = "0.80".toList := by
  refine ⟨?_, ?_, ?_, by decide⟩
  · intro h; subst h; decide
  · intro h
    have h1 : u ≠ ['/'] := by
      rintro rfl
      revert h; decide
    have h2 : u ≠ ['/', 'b', 'l', 'o', 'g'] := by
      rintro rfl
      revert h; decide
    have h3 : ['/', 'b', 'l', 'o', 'g', '/'].isPrefixOf u = true :=
      List.isPrefixOf_iff_prefix.mpr h
    simp [getPriority, startsWith, h1, h2, h3]
  · intro h1 h2
    have h1' : u ≠ ['/'] := h1
    have h3 : ['/', 'b', 'l', 'o', 'g', '/'].isPrefixOf u = false := by
      rw [Bool.eq_false_iff]
      intro h
      exact h2 (List.isPrefixOf_iff_prefix.mp h)
    simp [getPriority, startsWith, h1', h3]

/-- Witness for C3: the paths `/`, `/blog/post` and `/docs`. -/
theorem getPriority_cases_witness :
    getPriority "/".toList = "1.00".toList ∧
      getPriority "/blog/post".toList = "0.64".toList ∧
      getPriority "/docs".toList = "0.80".toList :=
  ⟨(getPriority_cases "/".toList).1 rfl,
   (getPriority_cases "/blog/post".toList).2.1 (by decide),
   (getPriority_cases "/docs".toList).2.2.1 (by decide) (by decide)⟩

/-- C4: for every navigation config the output of `extractPagesFromDocs` contains the root
path exactly once. -/
theorem extractPagesFromDocs_root_once (docsConfig : DocsConfig) :
    (extractPagesFromDocs docsConfig).count "/".toList = 1 :=
  count_eq_one_of_nodup_of_mem (nodup_extractPagesFromDocs docsConfig)
    ((mem_extractPagesFromDocs docsConfig _).mpr (Or.inl rfl))

/-- C5: on a navigation whose only page is `guide/indexing`, `extractPagesFromDocs` returns
`/` and `/guideing`: the first occurrence of `/index` is removed although the page does not
end in `/index`, and the path `/guide/indexing` is not in the output. -/
theorem extractPagesFromDocs_inner_index :
    extractPagesFromDocs ⟨⟨[⟨[⟨["guide/indexing".toList]⟩]⟩]⟩⟩
        = ["/".toList, "/guideing".toList] ∧
      "/guide/indexing".toList ∉
        extractPagesFromDocs ⟨⟨[⟨[⟨["guide/indexing".toList]⟩]⟩]⟩⟩ := by
  decide

/-! ## Front-matter parser: the metadata object -/

theorem Metadata.get_set (m : Metadata) (k k' : Str) (v : Value) :
    (m.set k v).get k' = if k = k' then some v else m.get k' := by
  induction m with
  | nil =>
    by_cases h : k = k' <;> simp [Metadata.set, Metadata.get, h]
  | cons e rest ih =>
    obtain ⟨a, w⟩ := e
    by_cases ha : a = k
    · subst ha
      by_cases h : a = k' <;> simp [Metadata.set, Metadata.get, h]
    · by_cases h : k = k'
      · subst h
        simp [Metadata.set, Metadata.get, ha, ih]
      · by_cases hak : a = k'
        · subst hak
          simp [Metadata.set, Metadata.get, ha, h]
        · simp [Metadata.set, Metadata.get, ha, hak, ih, h]

theorem Metadata.get_assign (m : Metadata) (k k' : Str) (v : Value) :
    (m.assign k v).get k' =
      if k = k' ∧ k ≠ "__proto__".toList then some v else m.get k' := by
  unfold Metadata.assign
  by_cases hp : k = "__proto__".toList
  · simp [hp]
  · rw [if_neg hp, Metadata.get_set]
    by_cases h : k = k'
    · rw [if_pos h, if_pos ⟨h, hp⟩]
    · rw [if_neg h, if_neg (fun hh => h hh.1)]

theorem get_processLine_of_match {line key raw : Str} (m : Metadata)
    (h : lineMatch line = some (key, raw)) (hkey : key ≠ "__proto__".toList) :
    (processLine m line).get key = some (parseValue (trim raw)) := by
  unfold processLine
  rw [h]
  show (m.assign key (parseValue (trim raw))).get key = _
  rw [Metadata.get_assign, if_pos ⟨rfl, hkey⟩]

theorem get_processLine_of_no_match {line key : Str} (m : Metadata)
    (h : ∀ raw, lineMatch line ≠ some (key, raw)) :
    (processLine m line).get key = m.get key := by
  unfold processLine
  cases hl : lineMatch line with
  | none => rfl
  | some e =>
    obtain ⟨k, raw⟩ := e
    simp only [Metadata.get_assign]
    have hk : k ≠ key := by
      rintro rfl
      exact h raw hl
    simp [hk]

theorem get_foldl_processLine_of_no_match (lines : List Str) (key : Str) (m : Metadata)
    (h : ∀ l ∈ lines, ∀ raw, lineMatch l ≠ some (key, raw)) :
    (lines.foldl processLine m).get key = m.get key := by
  induction lines generalizing m with
  | nil => rfl
  | cons l ls ih =>
    simp only [List.foldl_cons]
    rw [ih _ (fun l' hl' => h l' (List.mem_cons_of_mem _ hl'))]
    exact get_processLine_of_no_match m (h l (List.mem_cons_self _ _))

theorem get_foldl_processLine_last (pre post : List Str) (line key raw : Str) (m : Metadata)
    (hline : lineMatch line = some (key, raw)) (hkey : key ≠ "__proto__".toList)
    (hpost : ∀ l ∈ post, ∀ r, lineMatch l ≠ some (key, r)) :
    ((pre ++ line :: post).foldl processLine m).get key = some (parseValue (trim raw)) := by
  rw [List.foldl_append, List.foldl_cons, get_foldl_processLine_of_no_match post key _ hpost]
  exact get_processLine_of_match _ hline hkey

theorem extractMetadata_of_match {content frontmatter : Str}
    (h : frontmatterMatch content = some frontmatter) :
    extractMetadata content = (splitChar '\n' frontmatter).foldl processLine [] := by
  unfold extractMetadata
  rw [h]

theorem extractMetadata_of_no_match {content : Str} (h : frontmatterMatch content = none) :
    extractMetadata content = [] := by
  unfold extractMetadata
  rw [h]

/-! ## Front-matter parser: shape of a matching content -/

theorem lazyUntilClose_shape (s g : Str) (h : lazyUntilClose s = some g) :
    ∃ rest, s = g ++ "\n---".toList ++ rest := by
  induction s generalizing g with
  | nil => simp [lazyUntilClose] at h
  | cons c cs ih =>
    unfold lazyUntilClose at h
    split at h
    · rename_i hp
      have hg : g = [] := (Option.some.inj h).symm
      subst hg
      obtain ⟨t, ht⟩ := List.isPrefixOf_iff_prefix.mp hp
      exact ⟨t, by simpa using ht.symm⟩
    · cases hr : lazyUntilClose cs with
      | none => rw [hr] at h; simp at h
      | some g' =>
        rw [hr] at h
        simp only [Option.map_some'] at h
        have hg : g = c :: g' := (Option.some.inj h).symm
        obtain ⟨rest, hrest⟩ := ih g' hr
        exact ⟨rest, by rw [hg, hrest]; simp⟩

theorem take_le_takeWhile (p : Char → Bool) (l : Str) (k : Nat)
    (hk : k ≤ (l.takeWhile p).length) : ∀ c ∈ l.take k, p c = true := by
  induction l generalizing k with
  | nil => simp
  | cons a l ih =>
    cases k with
    | zero => simp
    | succ k =>
      by_cases ha : p a = true
      · simp only [List.takeWhile_cons, ha, if_true, List.length_cons] at hk
        intro c hc
        simp only [List.take_succ_cons, List.mem_cons] at hc
        rcases hc with hc | hc
        · rw [hc]; exact ha
        · exact ih k (by omega) c hc
      · simp [List.takeWhile_cons, ha] at hk

theorem openBlock_shape (rest : Str) (n : Nat) (g : Str) (h : openBlock rest n = some g) :
    ∃ k, k < n ∧ (rest.drop k).head? = some '\n' ∧
      lazyUntilClose (rest.drop (k + 1)) = some g := by
  induction n with
  | zero => simp [openBlock] at h
  | succ k ih =>
    unfold openBlock at h
    split at h
    · rename_i hnl
      cases hl : lazyUntilClose (rest.drop (k + 1)) with
      | some g' =>
        rw [hl] at h
        have hg : g' = g := Option.some.inj h
        exact ⟨k, Nat.lt_succ_self k, hnl, by rw [hl, hg]⟩
      | none =>
        rw [hl] at h
        obtain ⟨j, hj, h1, h2⟩ := ih h
        exact ⟨j, Nat.lt_succ_of_lt hj, h1, h2⟩
    · obtain ⟨j, hj, h1, h2⟩ := ih h
      exact ⟨j, Nat.lt_succ_of_lt hj, h1, h2⟩

theorem drop_eq_cons_of_head? (l : Str) (k : Nat) (c : Char)
    (h : (l.drop k).head? = some c) : l.drop k = c :: l.drop (k + 1) := by
  cases hd : l.drop k with
  | nil => rw [hd] at h; simp at h
  | cons a t =>
    rw [hd] at h
    simp only [List.head?_cons, Option.some.injEq] at h
    subst h
    have : l.drop (k + 1) = (l.drop k).drop 1 := by
      rw [List.drop_drop, Nat.add_comm]
    rw [this, hd]
    rfl

theorem frontmatterMatch_shape (content body : Str)
    (h : frontmatterMatch content = some body) :
    ∃ ws rest, (∀ c ∈ ws, isSpaceChar c = true) ∧
      content = "---".toList ++ ws ++ '\n' :: body ++ "\n---".toList ++ rest := by
  unfold frontmatterMatch at h
  split at h
  · rename_i hp
    obtain ⟨t, ht⟩ := List.isPrefixOf_iff_prefix.mp hp
    have hdrop : content.drop 3 = t := by rw [← ht]; rfl
    simp only [hdrop] at h
    obtain ⟨k, hk, hnl, hlazy⟩ := openBlock_shape _ _ _ h
    obtain ⟨rest, hrest⟩ := lazyUntilClose_shape _ _ hlazy
    refine ⟨t.take k, rest, take_le_takeWhile _ t k (Nat.le_of_lt hk), ?_⟩
    have h1 : t = t.take k ++ t.drop k := (List.take_append_drop k t).symm
    have h2 := drop_eq_cons_of_head? t k '\n' hnl
    rw [← ht]
    conv_lhs => rw [h1, h2, hrest]
    simp [List.append_assoc]
  · cases h

/-! ## Front-matter parser: the value and the line pattern -/

theorem startsWith_singleton (v : Str) (x : Char) :
    startsWith v [x] = true ↔ v.head? = some x := by
  cases v with
  | nil => simp [startsWith, List.isPrefixOf]
  | cons a t =>
    simp only [startsWith, List.isPrefixOf, List.head?_cons, Option.some.injEq,
      Bool.and_true, beq_iff_eq]
    exact eq_comm

theorem endsWith_singleton (v : Str) (x : Char) :
    endsWith v [x] = true ↔ v.getLast? = some x := by
  unfold endsWith List.isSuffixOf
  rw [List.getLast?_eq_head?_reverse]
  exact startsWith_singleton v.reverse x

theorem wrapped_cond (x y : Char) (v : Str) (h : v ≠ [x] ∨ x ≠ y) :
    (startsWith v [x] && endsWith v [y]) = true ↔ isWrapped x y v := by
  rw [Bool.and_eq_true, startsWith_singleton, endsWith_singleton]
  unfold isWrapped
  match v, h with
  | [], _ => simp
  | [a], h =>
    simp only [List.head?_cons, Option.some.injEq, List.getLast?_singleton, List.tail_cons,
      List.getLast?_nil]
    constructor
    · rintro ⟨h1, h2⟩
      rcases h with h | h
      · exact absurd (by rw [h1]) h
      · exact absurd (h1.symm.trans h2) h
    · rintro ⟨_, h2⟩
      cases h2
  | a :: c :: rest, _ => simp [List.getLast?_cons_cons]

theorem unquote_eq_specUnquote (v : Str) (h1 : v ≠ ['"']) (h2 : v ≠ [singleQuote]) :
    unquote v = specUnquote v := by
  unfold unquote specUnquote
  have e1 := wrapped_cond '"' '"' v (Or.inl h1)
  have e2 := wrapped_cond singleQuote singleQuote v (Or.inl h2)
  by_cases c : isWrapped '"' '"' v ∨ isWrapped singleQuote singleQuote v
  · rw [if_pos c, if_pos]
    · cases v <;> rfl
    · rw [Bool.or_eq_true, e1, e2]
      exact c
  · rw [if_neg c, if_neg]
    rw [Bool.or_eq_true, e1, e2]
    exact c

theorem parseValue_eq_specValue (v : Str) (h1 : v ≠ ['"']) (h2 : v ≠ [singleQuote]) :
    parseValue v = specValue v := by
  unfold parseValue specValue
  rw [← unquote_eq_specUnquote v h1 h2]
  generalize unquote v = u
  have e := wrapped_cond '[' ']' u (Or.inr (by decide))
  dsimp only
  by_cases c : isWrapped '[' ']' u
  · rw [if_pos c, if_pos (e.mpr c)]
    cases u <;> rfl
  · rw [if_neg c, if_neg (fun h => c (e.mp h))]

theorem takeWhile_append_stop (p : Char → Bool) (l : Str) (x : Char) (t : Str)
    (hl : ∀ c ∈ l, p c = true) (hx : p x = false) :
    (l ++ x :: t).takeWhile p = l ∧ (l ++ x :: t).dropWhile p = x :: t := by
  induction l with
  | nil => simp [List.takeWhile_cons, List.dropWhile_cons, hx]
  | cons a l ih =>
    have ha : p a = true := hl a (List.mem_cons_self _ _)
    have ih' := ih (fun c hc => hl c (List.mem_cons_of_mem _ hc))
    simp [List.takeWhile_cons, List.dropWhile_cons, ha, ih'.1, ih'.2]

theorem dotPlusToEnd_some (s v : Str) (h : dotPlusToEnd s = some v) :
    v = s ∧ s ≠ [] ∧ ∀ c ∈ s, isLineTerminator c = false := by
  unfold dotPlusToEnd at h
  split at h
  · rename_i hc
    refine ⟨(Option.some.inj h).symm, hc.1, ?_⟩
    intro c hcs
    have := List.all_eq_true.mp hc.2 c hcs
    simpa using this
  · cases h

theorem dotPlusToEnd_of (s : Str) (h1 : s ≠ []) (h2 : ∀ c ∈ s, isLineTerminator c = false) :
    dotPlusToEnd s = some s := by
  unfold dotPlusToEnd
  rw [if_pos]
  refine ⟨h1, ?_⟩
  rw [List.all_eq_true]
  intro c hc
  simp [h2 c hc]

theorem valueAfterColon_some (rest : Str) (n : Nat) (v : Str)
    (h : valueAfterColon rest n = some v) :
    ∃ k, k ≤ n ∧ dotPlusToEnd (rest.drop k) = some v := by
  induction n with
  | zero => exact ⟨0, Nat.le_refl 0, by simpa [valueAfterColon] using h⟩
  | succ k ih =>
    unfold valueAfterColon at h
    cases hd : dotPlusToEnd (rest.drop (k + 1)) with
    | some w =>
      rw [hd] at h
      exact ⟨k + 1, Nat.le_refl _, by rw [hd, Option.some.inj h]⟩
    | none =>
      rw [hd] at h
      obtain ⟨j, hj, hv⟩ := ih h
      exact ⟨j, Nat.le_succ_of_le hj, hv⟩

/-- A matching line is a key of word characters, a colon, white space, and a non-empty value
without line terminators. -/
theorem lineMatch_shape (line key raw : Str) (h : lineMatch line = some (key, raw)) :
    ∃ ws, line = key ++ ':' :: ws ++ raw ∧ key ≠ [] ∧
      (∀ c ∈ key, isWordChar c = true) ∧ (∀ c ∈ ws, isSpaceChar c = true) ∧
      raw ≠ [] ∧
      (∀ c ∈ raw, isLineTerminator c = false) := by
  unfold lineMatch at h
  dsimp only at h
  have hsplit := List.takeWhile_append_dropWhile isWordChar line
  split at h
  · rename_i rest hdrop
    split at h
    · cases h
    · rename_i hkey
      cases hv : valueAfterColon rest (rest.takeWhile isSpaceChar).length with
      | none => rw [hv] at h; cases h
      | some v =>
        rw [hv] at h
        simp only [Option.map_some', Option.some.injEq, Prod.mk.injEq] at h
        obtain ⟨hk, hr⟩ := h
        subst hr
        obtain ⟨k, hkn, hd⟩ := valueAfterColon_some _ _ _ hv
        obtain ⟨hv1, hv2, hv3⟩ := dotPlusToEnd_some _ _ hd
        refine ⟨rest.take k, ?_, ?_, ?_, take_le_takeWhile _ rest k hkn, ?_, ?_⟩
        · rw [hv1, List.append_assoc, List.cons_append, List.take_append_drop, ← hk, ← hdrop]
          exact hsplit.symm
        · rw [← hk]; exact hkey
        · rw [← hk]
          intro c hc
          exact List.mem_takeWhile_imp hc
        · rw [hv1]; exact hv2
        · rw [hv1]; exact hv3
  · cases h

/-- A line made of a key of word characters, a colon, white space, and a value that starts
with a character that is not white space and holds no line terminator, matches with that key
and that value. -/
theorem lineMatch_of_shape (key ws raw : Str) (hkey : key ≠ [])
    (hword : ∀ c ∈ key, isWordChar c = true) (hws : ∀ c ∈ ws, isSpaceChar c = true)
    (r : Char) (rs : Str) (hraw : raw = r :: rs) (hr : isSpaceChar r = false)
    (hterm : ∀ c ∈ raw, isLineTerminator c = false) :
    lineMatch (key ++ ':' :: ws ++ raw) = some (key, raw) := by
  have h1 := takeWhile_append_stop isWordChar key ':' (ws ++ raw) hword (by decide)
  have h2 := takeWhile_append_stop isSpaceChar ws r rs hws hr
  unfold lineMatch
  dsimp only
  rw [List.append_assoc, List.cons_append, h1.1, h1.2]
  show (if key = [] then none
    else Option.map (fun v => (key, v))
      (valueAfterColon (ws ++ raw) (List.takeWhile isSpaceChar (ws ++ raw)).length)) = _
  rw [if_neg hkey, hraw, h2.1]
  have hd : (ws ++ r :: rs).drop ws.length = r :: rs := by simp
  have hv : valueAfterColon (ws ++ r :: rs) ws.length = some (r :: rs) := by
    cases hlen : ws.length with
    | zero =>
      have : ws = [] := List.length_eq_zero.mp hlen
      subst this
      simp only [valueAfterColon, List.nil_append]
      exact dotPlusToEnd_of _ (List.cons_ne_nil _ _) (hraw ▸ hterm)
    | succ k =>
      unfold valueAfterColon
      rw [← hlen, hd, dotPlusToEnd_of _ (List.cons_ne_nil _ _) (hraw ▸ hterm)]
  rw [hv]
  rfl

theorem Metadata.mem_set (m : Metadata) (k : Str) (v : Value) (e : Str × Value)
    (h : e ∈ m.set k v) : e = (k, v) ∨ e ∈ m := by
  induction m with
  | nil =>
    simp only [Metadata.set, List.mem_singleton] at h
    exact Or.inl h
  | cons a rest ih =>
    obtain ⟨a1, a2⟩ := a
    unfold Metadata.set at h
    split at h
    · rename_i hk
      rcases List.mem_cons.mp h with h | h
      · left; rw [h, hk]
      · exact Or.inr (List.mem_cons_of_mem _ h)
    · rcases List.mem_cons.mp h with h | h
      · right; rw [h]; exact List.mem_cons_self _ _
      · rcases ih h with h | h
        · exact Or.inl h
        · exact Or.inr (List.mem_cons_of_mem _ h)

theorem mem_processLine (m : Metadata) (line : Str) (e : Str × Value)
    (h : e ∈ processLine m line) :
    e ∈ m ∨ ∃ raw, lineMatch line = some (e.1, raw) ∧ e.2 = parseValue (trim raw) := by
  unfold processLine at h
  cases hl : lineMatch line with
  | none => rw [hl] at h; exact Or.inl h
  | some kr =>
    obtain ⟨k, raw⟩ := kr
    rw [hl] at h
    change e ∈ Metadata.assign m k (parseValue (trim raw)) at h
    unfold Metadata.assign at h
    split at h
    · exact Or.inl h
    · rcases Metadata.mem_set _ _ _ _ h with h | h
      · right
        exact ⟨raw, by rw [h], by rw [h]⟩
      · exact Or.inl h

theorem mem_foldl_processLine (lines : List Str) (m : Metadata) (e : Str × Value)
    (h : e ∈ lines.foldl processLine m) :
    e ∈ m ∨ ∃ line ∈ lines, ∃ raw, lineMatch line = some (e.1, raw) ∧
      e.2 = parseValue (trim raw) := by
  induction lines generalizing m with
  | nil => exact Or.inl h
  | cons l ls ih =>
    simp only [List.foldl_cons] at h
    rcases ih _ h with h1 | ⟨line, hl, raw, hm, hv⟩
    · rcases mem_processLine _ _ _ h1 with h2 | ⟨raw, hm, hv⟩
      · exact Or.inl h2
      · exact Or.inr ⟨l, List.mem_cons_self _ _, raw, hm, hv⟩
    · exact Or.inr ⟨line, List.mem_cons_of_mem _ hl, raw, hm, hv⟩

/-! ## Claims on the front-matter parser -/

/-- C6, as stated, fails on a repeated key: both lines of the block `title: A`, `title: B`
have the form `key: value`, yet the result has the single entry `title ↦ B` and no entry for
the first line. -/
theorem extractMetadata_repeated_key :
    frontmatterMatch "---\ntitle: A\ntitle: B\n---".toList
        = some "title: A\ntitle: B".toList ∧
      lineMatch "title: A".toList = some ("title".toList, "A".toList) ∧
      lineMatch "title: B".toList = some ("title".toList, "B".toList) ∧
      extractMetadata "---\ntitle: A\ntitle: B\n---".toList
        = [("title".toList, Value.str "B".toList)] := by
  decide

/-- C6, amended: within a front-matter block, a line matching `key: value` whose key is not
`__proto__` and is not matched again by a later line yields the entry of that key, its value
being the code's treatment of the trimmed capture; every entry of the result comes from a
matching line; a matching line is a non-empty key of word characters, a colon, white space and
a non-empty value without line terminators, and every line of that shape whose value starts
with a character other than white space matches; the code's treatment of a value other than a
lone quote character is the specification's (one matching pair of surrounding quotes stripped,
then the array step); and the example block yields exactly `title ↦ Hello`,
`tags ↦ [a, b, c]`. -/
theorem extractMetadata_entries (content frontmatter : Str)
    (hmatch : frontmatterMatch content = some frontmatter) :
    (∀ pre post line key raw, splitChar '\n' frontmatter = pre ++ line :: post →
        lineMatch line = some (key, raw) → key ≠ "__proto__".toList →
        (∀ l ∈ post, ∀ r, lineMatch l ≠ some (key, r)) →
        (extractMetadata content).get key = some (parseValue (trim raw))) ∧
      (∀ e ∈ extractMetadata content, ∃ line ∈ splitChar '\n' frontmatter, ∃ raw,
        lineMatch line = some (e.1, raw) ∧ e.2 = parseValue (trim raw)) ∧
      (∀ line key raw, lineMatch line = some (key, raw) →
        ∃ ws, line = key ++ ':' :: ws ++ raw ∧ key ≠ [] ∧
          (∀ c ∈ key, isWordChar c = true) ∧ (∀ c ∈ ws, isSpaceChar c = true) ∧
          raw ≠ [] ∧
          (∀ c ∈ raw, isLineTerminator c = false)) ∧
      (∀ key ws r rs, key ≠ [] → (∀ c ∈ key, isWordChar c = true) →
        (∀ c ∈ ws, isSpaceChar c = true) → isSpaceChar r = false →
        (∀ c ∈ r :: rs, isLineTerminator c = false) →
        lineMatch (key ++ ':' :: ws ++ r :: rs) = some (key, r :: rs)) ∧
      (∀ v, v ≠ ['"'] → v ≠ [singleQuote] → parseValue v = specValue v) ∧
      extractMetadata "---\ntitle: \"Hello\"\ntags: [a, b, c]\n---\nbody".toList
        = [("title".toList, Value.str "Hello".toList),
           ("tags".toList, Value.arr ["a".toList, "b".toList, "c".toList])] := by
  refine ⟨?_, ?_, lineMatch_shape, ?_, parseValue_eq_specValue, by decide⟩
  · intro pre post line key raw hsplit hline hkey hpost
    rw [extractMetadata_of_match hmatch, hsplit]
    exact get_foldl_processLine_last pre post line key raw [] hline hkey hpost
  · intro e he
    rw [extractMetadata_of_match hmatch] at he
    rcases mem_foldl_processLine _ _ _ he with h | h
    · cases h
    · exact h
  · intro key ws r rs hkey hword hws hr hterm
    exact lineMatch_of_shape key ws (r :: rs) hkey hword hws r rs rfl hr hterm

/-- Witness for C6: the `title` line of the example block. -/
theorem extractMetadata_entries_witness :
    (extractMetadata "---\ntitle: \"Hello\"\ntags: [a, b, c]\n---\nbody".toList).get
        "title".toList = some (parseValue (trim "\"Hello\"".toList)) :=
  (extractMetadata_entries "---\ntitle: \"Hello\"\ntags: [a, b, c]\n---\nbody".toList
      "title: \"Hello\"\ntags: [a, b, c]".toList (by decide)).1
    [] ["tags: [a, b, c]".toList] "title: \"Hello\"".toList "title".toList "\"Hello\"".toList
    (by decide) (by decide) (by decide)
    (by
      intro l hl r h
      have hl' : l = "tags: [a, b, c]".toList := by simpa using hl
      have ht : lineMatch "tags: [a, b, c]".toList
          = some ("tags".toList, "[a, b, c]".toList) := by decide
      rw [hl', ht] at h
      have hk := (Prod.mk.inj (Option.some.inj h)).1
      exact absurd hk (by decide))

/-- C7, as stated, fails when the opening line carries trailing white space: the content
`--- `, `title: x`, `---` has a single line consisting of exactly `---`, so no block in the
claim's sense, yet `extractMetadata` returns the entry `title ↦ x`. -/
theorem extractMetadata_opening_line_with_space :
    ¬ hasDelimitedBlock "--- \ntitle: x\n---".toList ∧
      extractMetadata "--- \ntitle: x\n---".toList
        = [("title".toList, Value.str "x".toList)] := by
  decide

/-- C7, amended: `extractMetadata` is total, and it returns the empty mapping for every
content that is not `---`, white space, a newline, a body, a newline and `---` followed by
anything; every entry of the result comes from a matching line of such a body. -/
theorem extractMetadata_empty_without_block (content : Str) :
    ((¬ ∃ ws body rest, (∀ c ∈ ws, isSpaceChar c = true) ∧
          content = "---".toList ++ ws ++ '\n' :: body ++ "\n---".toList ++ rest) →
        extractMetadata content = []) ∧
      (∀ e ∈ extractMetadata content, ∃ ws body rest, (∀ c ∈ ws, isSpaceChar c = true) ∧
        content = "---".toList ++ ws ++ '\n' :: body ++ "\n---".toList ++ rest ∧
        ∃ line ∈ splitChar '\n' body, ∃ raw,
          lineMatch line = some (e.1, raw) ∧ e.2 = parseValue (trim raw)) := by
  have key : ∀ e ∈ extractMetadata content, ∃ ws body rest,
      (∀ c ∈ ws, isSpaceChar c = true) ∧
      content = "---".toList ++ ws ++ '\n' :: body ++ "\n---".toList ++ rest ∧
      ∃ line ∈ splitChar '\n' body, ∃ raw,
        lineMatch line = some (e.1, raw) ∧ e.2 = parseValue (trim raw) := by
    intro e he
    cases hm : frontmatterMatch content with
    | none =>
      rw [extractMetadata_of_no_match hm] at he
      cases he
    | some body =>
      obtain ⟨ws, rest, hws, hc⟩ := frontmatterMatch_shape content body hm
      rw [extractMetadata_of_match hm] at he
      rcases mem_foldl_processLine _ _ _ he with h | h
      · cases h
      · exact ⟨ws, body, rest, hws, hc, h⟩
  refine ⟨?_, key⟩
  intro hno
  cases hr : extractMetadata content with
  | nil => rfl
  | cons e es =>
    exfalso
    obtain ⟨ws, body, rest, hws, hc, _⟩ := key e (by rw [hr]; exact List.mem_cons_self _ _)
    exact hno ⟨ws, body, rest, hws, hc⟩

/-- Witness for C7: a content without any `---`. -/
theorem extractMetadata_empty_without_block_witness :
    extractMetadata "# Title\nbody".toList = [] :=
  (extractMetadata_empty_without_block "# Title\nbody".toList).1
    (by
      rintro ⟨ws, body, rest, _, h⟩
      simp at h)

/-! ## Post scanner -/

theorem scanFile_eq (readFile : Str → Option Str) (today : Str) (blogPosts : List PostRecord)
    (file : Str) :
    scanFile readFile today blogPosts file =
      blogPosts ++ (if isPostFile file = true then [postRecord readFile today file] else []) := by
  unfold scanFile postRecord
  by_cases h : isPostFile file = true
  · simp only [h, if_true]
    cases readFile file <;> rfl
  · simp [h]

theorem foldl_scanFile (readFile : Str → Option Str) (today : Str) (files : List Str)
    (blogPosts : List PostRecord) :
    files.foldl (scanFile readFile today) blogPosts =
      blogPosts ++ (files.filter isPostFile).map (postRecord readFile today) := by
  induction files generalizing blogPosts with
  | nil => simp
  | cons f fs ih =>
    rw [List.foldl_cons, ih, scanFile_eq]
    by_cases h : isPostFile f = true
    · simp [h, List.filter_cons]
    · simp [h, List.filter_cons]

theorem isPostFile_iff (file : Str) :
    isPostFile file = true ↔ ".mdx".toList <:+ file ∧ file ≠ "index.mdx".toList := by
  unfold isPostFile endsWith
  rw [Bool.and_eq_true, List.isSuffixOf_iff_suffix]
  simp

theorem joinWith_cons_cons (sep : Str) (c : Char) (l : Str) (rest : List Str) :
    joinWith sep ((c :: l) :: rest) = c :: joinWith sep (l :: rest) := by
  cases rest <;> simp [joinWith]

theorem capitalizeFrom_words (s : Str) (hs : ∀ c ∈ s, isWordChar c = true ∨ c = ' ') :
    ∃ w ws, splitChar ' ' s = w :: ws ∧
      capitalizeFrom true s = joinWith [' '] (w :: ws.map capitalizeFirst) ∧
      capitalizeFrom false s = joinWith [' '] (capitalizeFirst w :: ws.map capitalizeFirst) := by
  induction s with
  | nil => exact ⟨[], [], rfl, rfl, rfl⟩
  | cons c cs ih =>
    obtain ⟨w, ws, hsplit, ht, hf⟩ := ih (fun x hx => hs x (List.mem_cons_of_mem _ hx))
    by_cases hc : c = ' '
    · subst hc
      refine ⟨[], w :: ws, ?_, ?_, ?_⟩
      · simp [splitChar, hsplit]
      · have : capitalizeFrom true (' ' :: cs) = ' ' :: capitalizeFrom false cs := by
          simp [capitalizeFrom, isWordChar]
        rw [this, hf]
        simp [joinWith]
      · have : capitalizeFrom false (' ' :: cs) = ' ' :: capitalizeFrom false cs := by
          simp [capitalizeFrom, isWordChar]
        rw [this, hf]
        simp [joinWith, capitalizeFirst]
    · have hw : isWordChar c = true := by
        rcases hs c (List.mem_cons_self _ _) with h | h
        · exact h
        · exact absurd h hc
      refine ⟨c :: w, ws, ?_, ?_, ?_⟩
      · simp [splitChar, hsplit, hc]
      · have : capitalizeFrom true (c :: cs) = c :: capitalizeFrom true cs := by
          simp [capitalizeFrom, hw]
        rw [this, ht, joinWith_cons_cons]
      · have : capitalizeFrom false (c :: cs) = toUpperWord c :: capitalizeFrom true cs := by
          simp [capitalizeFrom, hw]
        rw [this, ht, capitalizeFirst, joinWith_cons_cons]

theorem humanizeSlug_eq_specTitle (slug : Str)
    (h : ∀ c ∈ slug, isWordChar c = true ∨ c = '-') : humanizeSlug slug = specTitle slug := by
  unfold humanizeSlug specTitle
  have hs : ∀ c ∈ hyphensToSpaces slug, isWordChar c = true ∨ c = ' ' := by
    intro c hc
    unfold hyphensToSpaces at hc
    obtain ⟨d, hd, hdc⟩ := List.mem_map.mp hc
    by_cases hdash : d = '-'
    · right; rw [← hdc]; simp [hdash]
    · left
      rw [← hdc]
      simp only [hdash, if_false]
      rcases h d hd with h1 | h1
      · exact h1
      · exact absurd h1 hdash
  obtain ⟨w, ws, hsplit, _, hf⟩ := capitalizeFrom_words _ hs
  rw [hf, hsplit]
  rfl

/-! ## Claims on the post scanner -/

/-- C8: for every directory listing and every outcome of reading each file, `scanBlogPosts`
returns, in listing order, exactly one record per file name that ends in `.mdx` and is not
`index.mdx`; the record of a file whose read fails holds the fallback values; records of
files other than a given one do not depend on the outcome of reading that one; and an
unreadable directory gives no records. -/
theorem scanBlogPosts_one_record_per_post_file (files : List Str)
    (readFile : Str → Option Str) (today : Str) :
    scanBlogPosts (some files) readFile today
        = (files.filter isPostFile).map (postRecord readFile today) ∧
      (scanBlogPosts (some files) readFile today).length = (files.filter isPostFile).length ∧
      (∀ file, isPostFile file = true ↔
        ".mdx".toList <:+ file ∧ file ≠ "index.mdx".toList) ∧
      (∀ file, readFile file = none →
        postRecord readFile today file =
          { slug := replaceFirst ".mdx".toList [] file
            url := "/blog/".toList ++ replaceFirst ".mdx".toList [] file
            title := Value.str (humanizeSlug (replaceFirst ".mdx".toList [] file))
            description := Value.str []
            date := Value.str today
            author := Value.str "FastApps Team".toList
            tags := Value.arr []
            image := Value.str "/images/default-blog.png".toList }) ∧
      (∀ (readFile' : Str → Option Str) (bad : Str),
        (∀ f, f ≠ bad → readFile' f = readFile f) →
        ∀ i : Nat, (files.filter isPostFile)[i]? ≠ some bad →
          (scanBlogPosts (some files) readFile' today)[i]?
            = (scanBlogPosts (some files) readFile today)[i]?) ∧
      scanBlogPosts none readFile today = [] := by
  have hscan : ∀ r : Str → Option Str, scanBlogPosts (some files) r today
      = (files.filter isPostFile).map (postRecord r today) := by
    intro r
    show files.foldl (scanFile r today) [] = _
    rw [foldl_scanFile]
    rfl
  refine ⟨hscan readFile, ?_, isPostFile_iff, ?_, ?_, rfl⟩
  · rw [hscan, List.length_map]
  · intro file hfile
    unfold postRecord
    rw [hfile]
    rfl
  · intro readFile' bad hagree i hi
    rw [hscan, hscan, List.getElem?_map, List.getElem?_map]
    cases hf : (files.filter isPostFile)[i]? with
    | none => rfl
    | some f =>
      have hne : f ≠ bad := by
        intro h
        rw [hf, h] at hi
        exact hi rfl
      simp only [Option.map_some']
      unfold postRecord
      rw [hagree f hne]

/-- Witness for C8: `a.mdx` cannot be read, `b.mdx` holds a title, `index.mdx` and `notes.txt`
are passed over. -/
theorem scanBlogPosts_one_record_per_post_file_witness :
    postRecord (fun f => if f = "b.mdx".toList then some "---\ntitle: B\n---".toList else none)
        "2024-05-05".toList "a.mdx".toList =
      { slug := replaceFirst ".mdx".toList [] "a.mdx".toList
        url := "/blog/".toList ++ replaceFirst ".mdx".toList [] "a.mdx".toList
        title := Value.str (humanizeSlug (replaceFirst ".mdx".toList [] "a.mdx".toList))
        description := Value.str []
        date := Value.str "2024-05-05".toList
        author := Value.str "FastApps Team".toList
        tags := Value.arr []
        image := Value.str "/images/default-blog.png".toList } :=
  (scanBlogPosts_one_record_per_post_file
      ["a.mdx".toList, "index.mdx".toList, "b.mdx".toList, "notes.txt".toList]
      (fun f => if f = "b.mdx".toList then some "---\ntitle: B\n---".toList else none)
      "2024-05-05".toList).2.2.2.1 "a.mdx".toList (by decide)

/-- C9, as stated, fails on a slug with an apostrophe: the file `what's-new.mdx` without front
matter gets the title `What'S New`, whereas capitalizing the first letter of each word of
`what's new` gives `What's New`. -/
theorem apostrophe_slug_title :
    (postRecord (fun _ => some "no front matter".toList) "2024-05-05".toList
        "what's-new.mdx".toList).title = Value.str "What'S New".toList ∧
      specTitle "what's-new".toList = "What's New".toList ∧
      scanBlogPosts (some ["what's-new.mdx".toList]) (fun _ => some "no front matter".toList)
          "2024-05-05".toList
        = [postRecord (fun _ => some "no front matter".toList) "2024-05-05".toList
            "what's-new.mdx".toList] := by
  decide

/-- C9, amended: for a post file whose content has no front-matter block, or whose metadata
has no title, the title is the slug with every hyphen replaced by a space and every word
character (`A-Z`, `a-z`, `0-9`, `_`) that starts the string or follows a character that is
not a word character upper-cased; for a slug made of word characters and hyphens only this is
the slug with hyphens replaced by spaces and the first letter of each word capitalized; the
file `my-post.mdx` gets `My Post`. -/
theorem title_fallback (readFile : Str → Option Str) (today file content : Str)
    (hread : readFile file = some content)
    (hnone : frontmatterMatch content = none ∨
      (extractMetadata content).get "title".toList = none) :
    (postRecord readFile today file).title
        = Value.str (capitalizeFrom false
            (hyphensToSpaces (replaceFirst ".mdx".toList [] file))) ∧
      ((∀ c ∈ replaceFirst ".mdx".toList [] file, isWordChar c = true ∨ c = '-') →
        (postRecord readFile today file).title
          = Value.str (specTitle (replaceFirst ".mdx".toList [] file))) ∧
      humanizeSlug (replaceFirst ".mdx".toList [] "my-post.mdx".toList) = "My Post".toList := by
  have hget : (extractMetadata content).get "title".toList = none := by
    rcases hnone with h | h
    · rw [extractMetadata_of_no_match h]
      rfl
    · exact h
  have htitle : (postRecord readFile today file).title
      = Value.str (humanizeSlug (replaceFirst ".mdx".toList [] file)) := by
    unfold postRecord
    rw [hread]
    simp only [metadataRecord, hget, orDefault]
  refine ⟨htitle, ?_, by decide⟩
  intro hk
  rw [htitle, humanizeSlug_eq_specTitle _ hk]

/-- Witness for C9: the file `my-post.mdx` with a body and no front matter. -/
theorem title_fallback_witness :
    (postRecord (fun _ => some "body".toList) "2024-05-05".toList "my-post.mdx".toList).title
        = Value.str (capitalizeFrom false
            (hyphensToSpaces (replaceFirst ".mdx".toList [] "my-post.mdx".toList))) :=
  (title_fallback (fun _ => some "body".toList) "2024-05-05".toList "my-post.mdx".toList
    "body".toList rfl (Or.inl (by decide))).1

/-! ## Guide renderer: order of the listing -/

theorem mem_sortInsert {α : Type} (cmp : α → α → Int) (x y : α) (l : List α) :
    y ∈ sortInsert cmp x l ↔ y = x ∨ y ∈ l := by
  rw [sortInsert_eq_orderedInsert]
  exact List.mem_orderedInsert _

theorem sortInsert_pairwise {α : Type} (cmp : α → α → Int) (P : α → Prop)
    (htotal : ∀ a b, P a → P b → cmp a b ≤ 0 ∨ cmp b a ≤ 0)
    (htrans : ∀ a b c, P a → P b → P c → cmp a b ≤ 0 → cmp b c ≤ 0 → cmp a c ≤ 0)
    (x : α) (hx : P x) (l : List α) (hl : ∀ y ∈ l, P y)
    (hs : l.Pairwise (fun a b => cmp a b ≤ 0)) :
    (sortInsert cmp x l).Pairwise (fun a b => cmp a b ≤ 0) := by
  induction l with
  | nil => simp [sortInsert]
  | cons y ys ih =>
    have hy : P y := hl y (List.mem_cons_self _ _)
    have hys : ∀ z ∈ ys, P z := fun z hz => hl z (List.mem_cons_of_mem _ hz)
    rw [List.pairwise_cons] at hs
    unfold sortInsert
    by_cases hxy : cmp x y ≤ 0
    · rw [if_pos hxy, List.pairwise_cons]
      refine ⟨?_, List.pairwise_cons.mpr hs⟩
      intro z hz
      rcases List.mem_cons.mp hz with h | h
      · rw [h]; exact hxy
      · exact htrans x y z hx hy (hys z h) hxy (hs.1 z h)
    · rw [if_neg hxy, List.pairwise_cons]
      refine ⟨?_, ih hys hs.2⟩
      intro z hz
      rcases (mem_sortInsert cmp x z ys).mp hz with h | h
      · rw [h]
        exact (htotal x y hx hy).resolve_left hxy
      · exact hs.1 z h

theorem arraySort_pairwise {α : Type} (cmp : α → α → Int) (P : α → Prop)
    (htotal : ∀ a b, P a → P b → cmp a b ≤ 0 ∨ cmp b a ≤ 0)
    (htrans : ∀ a b c, P a → P b → P c → cmp a b ≤ 0 → cmp b c ≤ 0 → cmp a c ≤ 0)
    (l : List α) (hl : ∀ y ∈ l, P y) :
    (arraySort cmp l).Pairwise (fun a b => cmp a b ≤ 0) := by
  induction l with
  | nil => simp [arraySort]
  | cons x xs ih =>
    have hxs : ∀ y ∈ xs, P y := fun y hy => hl y (List.mem_cons_of_mem _ hy)
    unfold arraySort
    refine sortInsert_pairwise cmp P htotal htrans x (hl x (List.mem_cons_self _ _)) _ ?_
      (ih hxs)
    intro y hy
    exact hxs y ((arraySort_perm cmp xs).mem_iff.mp hy)

theorem dateCompare_of_times (parseDate : Str → Option Int) (a b : PostRecord) (ta tb : Int)
    (ha : postTime parseDate a = some ta) (hb : postTime parseDate b = some tb) :
    dateCompare parseDate a b = tb - ta := by
  unfold dateCompare
  rw [ha, hb]

/-! ## Post scanner: slug, url and priority -/

theorem mem_scanBlogPosts (listing : Option (List Str)) (readFile : Str → Option Str)
    (today : Str) (post : PostRecord) (h : post ∈ scanBlogPosts listing readFile today) :
    ∃ files file, listing = some files ∧ file ∈ files ∧ isPostFile file = true ∧
      post = postRecord readFile today file := by
  cases listing with
  | none => cases h
  | some files =>
    have hs : scanBlogPosts (some files) readFile today
        = (files.filter isPostFile).map (postRecord readFile today) := by
      show files.foldl (scanFile readFile today) [] = _
      rw [foldl_scanFile]
      rfl
    rw [hs] at h
    obtain ⟨file, hfile, hpost⟩ := List.mem_map.mp h
    obtain ⟨hmem, hacc⟩ := List.mem_filter.mp hfile
    exact ⟨files, file, rfl, hmem, hacc, hpost.symm⟩

theorem postRecord_slug (readFile : Str → Option Str) (today file : Str) :
    (postRecord readFile today file).slug = replaceFirst ".mdx".toList [] file := by
  unfold postRecord
  cases readFile file <;> rfl

theorem postRecord_url (readFile : Str → Option Str) (today file : Str) :
    (postRecord readFile today file).url
      = "/blog/".toList ++ replaceFirst ".mdx".toList [] file := by
  unfold postRecord
  cases readFile file <;> rfl

theorem getPriority_blog_slug (slug : Str) :
    getPriority ("/blog/".toList ++ slug) = "0.64".toList := by
  have h1 : ("/blog/".toList ++ slug) ≠ "/".toList := by
    intro h
    have := congrArg List.length h
    simp at this
  have h2 : ("/blog/".toList ++ slug) ≠ "/blog".toList := by
    intro h
    have := congrArg List.length h
    simp at this
  have h3 : "/blog/".toList.isPrefixOf ("/blog/".toList ++ slug) = true :=
    List.isPrefixOf_iff_prefix.mpr (List.prefix_append _ _)
  unfold getPriority startsWith
  rw [if_neg h1, if_pos]
  rw [Bool.and_eq_true]
  exact ⟨h3, bne_iff_ne.mpr h2⟩

/-! ## Claims on slug, url and priority of a post -/

/-- C11: the file `draft.mdx-notes.mdx` is accepted by the scanner and gets the slug
`draft-notes.mdx`: the first occurrence of `.mdx` is removed, not the extension, and the slug
followed by `.mdx` is not the file name. -/
theorem slug_inner_extension :
    isPostFile "draft.mdx-notes.mdx".toList = true ∧
      scanBlogPosts (some ["draft.mdx-notes.mdx".toList]) (fun _ => none) "2024-05-05".toList
        = [fallbackRecord "2024-05-05".toList "draft-notes.mdx".toList] ∧
      (postRecord (fun _ => some "body".toList) "2024-05-05".toList
        "draft.mdx-notes.mdx".toList).slug = "draft-notes.mdx".toList ∧
      "draft-notes.mdx".toList ++ ".mdx".toList ≠ "draft.mdx-notes.mdx".toList := by
  decide

/-- C12: every record produced by `scanBlogPosts` has a url equal to `/blog/` followed by its
slug; this holds of the record built from the metadata and of the fallback record. -/
theorem scanBlogPosts_url_is_blog_slug (listing : Option (List Str))
    (readFile : Str → Option Str) (today : Str) :
    (∀ post ∈ scanBlogPosts listing readFile today,
        post.url = "/blog/".toList ++ post.slug) ∧
      (∀ slug metadata, (metadataRecord today slug metadata).url
        = "/blog/".toList ++ (metadataRecord today slug metadata).slug) ∧
      (∀ slug, (fallbackRecord today slug).url
        = "/blog/".toList ++ (fallbackRecord today slug).slug) := by
  refine ⟨?_, fun _ _ => rfl, fun _ => rfl⟩
  intro post hpost
  obtain ⟨_, file, _, _, _, hp⟩ := mem_scanBlogPosts listing readFile today post hpost
  rw [hp, postRecord_url, postRecord_slug]

/-- Witness for C12: a readable post and an unreadable one. -/
theorem scanBlogPosts_url_is_blog_slug_witness :
    (postRecord (fun f => if f = "a.mdx".toList then some "---\ntitle: A\n---".toList else none)
        "2024-05-05".toList "b.mdx".toList).url
      = "/blog/".toList ++
        (postRecord (fun f => if f = "a.mdx".toList then some "---\ntitle: A\n---".toList
          else none) "2024-05-05".toList "b.mdx".toList).slug :=
  (scanBlogPosts_url_is_blog_slug (some ["a.mdx".toList, "b.mdx".toList])
    (fun f => if f = "a.mdx".toList then some "---\ntitle: A\n---".toList else none)
    "2024-05-05".toList).1 _ (by decide)

/-- C18: for every record produced by `scanBlogPosts`, whatever the file name, `getPriority`
of the record's url is `0.64`, hence neither `1.00` nor `0.80`. -/
theorem post_url_priority (listing : Option (List Str)) (readFile : Str → Option Str)
    (today : Str) (post : PostRecord) (hpost : post ∈ scanBlogPosts listing readFile today) :
    getPriority post.url = "0.64".toList ∧ getPriority post.url ≠ "1.00".toList ∧
      getPriority post.url ≠ "0.80".toList := by
  obtain ⟨_, file, _, _, _, hp⟩ := mem_scanBlogPosts listing readFile today post hpost
  have h : getPriority post.url = "0.64".toList := by
    rw [hp, postRecord_url]
    exact getPriority_blog_slug _
  rw [h]
  exact ⟨rfl, by decide, by decide⟩

/-- Witness for C18: the file `.mdx`, whose slug is empty and whose url is `/blog/`. -/
theorem post_url_priority_witness :
    getPriority (fallbackRecord "2024-05-05".toList []).url = "0.64".toList ∧
      getPriority (fallbackRecord "2024-05-05".toList []).url ≠ "1.00".toList ∧
      getPriority (fallbackRecord "2024-05-05".toList []).url ≠ "0.80".toList :=
  post_url_priority (some [".mdx".toList]) (fun _ => none) "2024-05-05".toList
    (fallbackRecord "2024-05-05".toList []) (by decide)

/-! ## Guide renderer and dates -/

/-- C13: a post whose front matter reads `tags: news` gets the plain string `news` as its
tags, not an array; the listing then calls `join` on that string, which throws, and
`updateReadmeBlog` returns nothing. -/
theorem tags_plain_string :
    (postRecord (fun _ => some "---\ntags: news\n---".toList) "2024-05-05".toList
        "a.mdx".toList).tags = Value.str "news".toList ∧
      scanBlogPosts (some ["a.mdx".toList]) (fun _ => some "---\ntags: news\n---".toList)
          "2024-05-05".toList
        = [postRecord (fun _ => some "---\ntags: news\n---".toList) "2024-05-05".toList
            "a.mdx".toList] ∧
      renderTags (Value.str "news".toList) = none ∧
      updateReadmeBlog isoDateOnly (fun s => s) [] "May 5, 2024".toList
          (scanBlogPosts (some ["a.mdx".toList])
            (fun _ => some "---\ntags: news\n---".toList) "2024-05-05".toList) = none := by
  decide

/-- C14, as stated, fails on a date written otherwise: a post whose front matter reads
`date: January 5, 2024` gets that string as its date, which is not in the format
`YYYY-MM-DD`. -/
theorem date_kept_as_written :
    (postRecord (fun _ => some "---\ndate: January 5, 2024\n---".toList) "2024-05-05".toList
        "a.mdx".toList).date = Value.str "January 5, 2024".toList ∧
      isDateFormat "January 5, 2024".toList = false := by
  decide

/-- C14, amended: the date of a post is the metadata `publishDate` when the front matter
gives that key a non-empty value, otherwise the metadata `date` when the front matter gives
that key a non-empty value, otherwise today's date, also when the file cannot be read; the
value is kept as written, so it is in the format `YYYY-MM-DD` when it is today's date (the
clock giving that format) and when the metadata value chosen is a string in that format. -/
theorem postRecord_date (readFile : Str → Option Str) (today file : Str)
    (htoday : isDateFormat today = true) :
    (∀ content, readFile file = some content →
        (∀ v, (extractMetadata content).get "publishDate".toList = some v →
          v ≠ Value.str [] → (postRecord readFile today file).date = v) ∧
        (((extractMetadata content).get "publishDate".toList = none ∨
            (extractMetadata content).get "publishDate".toList = some (Value.str [])) →
          (∀ v, (extractMetadata content).get "date".toList = some v →
            v ≠ Value.str [] → (postRecord readFile today file).date = v) ∧
          (((extractMetadata content).get "date".toList = none ∨
              (extractMetadata content).get "date".toList = some (Value.str [])) →
            (postRecord readFile today file).date = Value.str today))) ∧
      (readFile file = none → (postRecord readFile today file).date = Value.str today) ∧
      (∀ s, (postRecord readFile today file).date = Value.str s →
        s = today ∨
          ∃ content, readFile file = some content ∧
            ((extractMetadata content).get "publishDate".toList = some (Value.str s) ∨
              (extractMetadata content).get "date".toList = some (Value.str s))) ∧
      (∀ s, (postRecord readFile today file).date = Value.str s → s = today →
        isDateFormat s = true) := by
  have hor : ∀ (m : Option Value) (d v : Value), m = some v → v ≠ Value.str [] →
      orDefault m d = v := by
    intro m d v hm hv
    subst hm
    cases v with
    | str s =>
      cases s with
      | nil => exact absurd rfl hv
      | cons c cs => rfl
    | arr items => rfl
  have hor' : ∀ (m : Option Value) (d : Value), (m = none ∨ m = some (Value.str [])) →
      orDefault m d = d := by
    intro m d hm
    rcases hm with h | h <;> subst h <;> rfl
  have hdate : ∀ content, readFile file = some content →
      (postRecord readFile today file).date
        = orDefault ((extractMetadata content).get "publishDate".toList)
            (orDefault ((extractMetadata content).get "date".toList) (Value.str today)) := by
    intro content hread
    unfold postRecord
    rw [hread]
    rfl
  have hnone : readFile file = none →
      (postRecord readFile today file).date = Value.str today := by
    intro hread
    unfold postRecord
    rw [hread]
    rfl
  refine ⟨?_, hnone, ?_, ?_⟩
  · intro content hread
    refine ⟨?_, ?_⟩
    · intro v hv hne
      rw [hdate content hread, hor _ _ v hv hne]
    · intro hp
      refine ⟨?_, ?_⟩
      · intro v hv hne
        rw [hdate content hread, hor' _ _ hp, hor _ _ v hv hne]
      · intro hd
        rw [hdate content hread, hor' _ _ hp, hor' _ _ hd]
  · intro s hs
    cases hread : readFile file with
    | none =>
      rw [hnone hread] at hs
      exact Or.inl (Value.str.inj hs).symm
    | some content =>
      rw [hdate content hread] at hs
      by_cases hp : (extractMetadata content).get "publishDate".toList = none ∨
          (extractMetadata content).get "publishDate".toList = some (Value.str [])
      · rw [hor' _ _ hp] at hs
        by_cases hd : (extractMetadata content).get "date".toList = none ∨
            (extractMetadata content).get "date".toList = some (Value.str [])
        · rw [hor' _ _ hd] at hs
          exact Or.inl (Value.str.inj hs).symm
        · cases hg : (extractMetadata content).get "date".toList with
          | none => exact absurd (Or.inl hg) hd
          | some v =>
            have hne : v ≠ Value.str [] := by
              intro h
              exact hd (Or.inr (by rw [hg, h]))
            rw [hor _ _ v hg hne] at hs
            exact Or.inr ⟨content, rfl, Or.inr (by rw [hg, hs])⟩
      · cases hg : (extractMetadata content).get "publishDate".toList with
        | none => exact absurd (Or.inl hg) hp
        | some v =>
          have hne : v ≠ Value.str [] := by
            intro h
            exact hp (Or.inr (by rw [hg, h]))
          rw [hor _ _ v hg hne] at hs
          exact Or.inr ⟨content, rfl, Or.inl (by rw [hg, hs])⟩
  · intro s _ hs
    rw [hs]
    exact htoday

/-- Witness for C14: a post with a `date` and no `publishDate`. -/
theorem postRecord_date_witness :
    (postRecord (fun _ => some "---\ndate: 2024-01-05\n---".toList) "2024-05-05".toList
        "a.mdx".toList).date = Value.str "2024-01-05".toList :=
  ((postRecord_date (fun _ => some "---\ndate: 2024-01-05\n---".toList) "2024-05-05".toList
      "a.mdx".toList (by decide)).1 "---\ndate: 2024-01-05\n---".toList rfl).2
    (Or.inl (by decide)) |>.1 (Value.str "2024-01-05".toList) (by decide) (by decide)


/-! ## Page extractor: stripping twice and reordering -/

theorem replaceFirst_of_not_occursIn (pat rep s : Str) (h : occursIn pat s = false) :
    replaceFirst pat rep s = s := by
  induction s with
  | nil =>
    unfold occursIn at h
    have hp : pat ≠ [] := by
      intro hp
      rw [hp] at h
      cases h
    simp [replaceFirst, hp]
  | cons c cs ih =>
    unfold occursIn at h
    rw [Bool.or_eq_false_iff] at h
    unfold replaceFirst
    rw [if_neg (by rw [h.1]; exact Bool.false_ne_true), ih h.2]

theorem navPages_mapPages (f : Str → Str) (docsConfig : DocsConfig) :
    navPages (docsConfig.mapPages f) = (navPages docsConfig).map f := by
  have hg : ∀ gs : List Group,
      (gs.map (fun group => (⟨group.pages.map f⟩ : Group))).flatMap (fun group => group.pages)
        = (gs.flatMap (fun group => group.pages)).map f := by
    intro gs
    induction gs with
    | nil => rfl
    | cons g gs ih => simp only [List.map_cons, List.flatMap_cons, List.map_append, ih]
  unfold navPages DocsConfig.mapPages
  generalize docsConfig.navigation.tabs = ts
  induction ts with
  | nil => rfl
  | cons t ts ih =>
    simp only [List.map_cons, List.flatMap_cons, List.map_append, hg] at ih ⊢
    rw [ih]

theorem mem_navPages (docsConfig : DocsConfig) (p : Str) :
    p ∈ navPages docsConfig ↔
      ∃ tab ∈ docsConfig.navigation.tabs, ∃ group ∈ tab.groups, p ∈ group.pages := by
  unfold navPages
  simp only [List.mem_flatMap]

theorem sameSet_of_navPages (c₁ c₂ : DocsConfig)
    (h : ∀ p, p ∈ navPages c₁ ↔ p ∈ navPages c₂) :
    sameSet (extractPagesFromDocs c₁) (extractPagesFromDocs c₂) ∧
      (extractPagesFromDocs c₁).Perm (extractPagesFromDocs c₂) := by
  have hs : sameSet (extractPagesFromDocs c₁) (extractPagesFromDocs c₂) := by
    intro y
    rw [mem_extractPagesFromDocs, mem_extractPagesFromDocs]
    constructor
    · rintro (hy | ⟨p, hp, hy⟩)
      · exact Or.inl hy
      · exact Or.inr ⟨p, (h p).mp hp, hy⟩
    · rintro (hy | ⟨p, hp, hy⟩)
      · exact Or.inl hy
      · exact Or.inr ⟨p, (h p).mpr hp, hy⟩
  exact ⟨hs, (List.perm_ext_iff_of_nodup (nodup_extractPagesFromDocs c₁)
    (nodup_extractPagesFromDocs c₂)).mpr hs⟩

/-! ## Claims on stripping twice and on reordering -/

/-- C15, as stated, fails on a page with `/index` twice: stripping `docs/index/index` gives
`docs/index`, and stripping that again gives `docs`; extracting from the stripped page gives
another set than extracting from the page. -/
theorem cleanPath_twice_differs :
    cleanPath "docs/index/index".toList = "docs/index".toList ∧
      cleanPath (cleanPath "docs/index/index".toList) = "docs".toList ∧
      extractPagesFromDocs ⟨⟨[⟨[⟨["docs/index/index".toList]⟩]⟩]⟩⟩
        = ["/".toList, "/docs/index".toList] ∧
      extractPagesFromDocs
          (DocsConfig.mapPages cleanPath ⟨⟨[⟨[⟨["docs/index/index".toList]⟩]⟩]⟩⟩)
        = ["/".toList, "/docs".toList] := by
  decide

/-- C15, amended: if the stripped page string no longer contains `/index`, stripping it again
changes nothing; a page string without `/index` is left as it is; and for a config all of
whose stripped page strings are free of `/index`, extracting from the stripped page strings
yields the same set of paths. -/
theorem cleanPath_twice_of_no_index (page : Str) :
    (occursIn "/index".toList (cleanPath page) = false →
        cleanPath (cleanPath page) = cleanPath page) ∧
      (occursIn "/index".toList page = false → cleanPath page = page) ∧
      (∀ docsConfig : DocsConfig,
        (∀ p ∈ navPages docsConfig, occursIn "/index".toList (cleanPath p) = false) →
        sameSet (extractPagesFromDocs (docsConfig.mapPages cleanPath))
          (extractPagesFromDocs docsConfig)) := by
  refine ⟨replaceFirst_of_not_occursIn _ _ _, replaceFirst_of_not_occursIn _ _ _, ?_⟩
  intro docsConfig hfree y
  rw [mem_extractPagesFromDocs, mem_extractPagesFromDocs, navPages_mapPages]
  constructor
  · rintro (hy | ⟨q, hq, hy⟩)
    · exact Or.inl hy
    · obtain ⟨p, hp, hpq⟩ := List.mem_map.mp hq
      refine Or.inr ⟨p, hp, ?_⟩
      rw [hy, ← hpq]
      exact congrArg (List.cons '/') (replaceFirst_of_not_occursIn _ _ _ (hfree p hp))
  · rintro (hy | ⟨p, hp, hy⟩)
    · exact Or.inl hy
    · refine Or.inr ⟨cleanPath p, List.mem_map.mpr ⟨p, hp, rfl⟩, ?_⟩
      rw [hy]
      exact (congrArg (List.cons '/') (replaceFirst_of_not_occursIn _ _ _ (hfree p hp))).symm

/-- Witness for C15: the page `blog/index`, whose stripped form `blog` holds no `/index`. -/
theorem cleanPath_twice_of_no_index_witness :
    cleanPath (cleanPath "blog/index".toList) = cleanPath "blog/index".toList :=
  (cleanPath_twice_of_no_index "blog/index".toList).1 (by decide)

/-- C16: reordering the tabs, the groups within a tab, or the pages within a group does not
change the set of page paths returned by `extractPagesFromDocs`: the two outputs have the
same members and are rearrangements of each other. -/
theorem extractPagesFromDocs_reorder :
    (∀ tabs tabs' : List Tab, tabs.Perm tabs' →
        sameSet (extractPagesFromDocs ⟨⟨tabs⟩⟩) (extractPagesFromDocs ⟨⟨tabs'⟩⟩) ∧
          (extractPagesFromDocs ⟨⟨tabs⟩⟩).Perm (extractPagesFromDocs ⟨⟨tabs'⟩⟩)) ∧
      (∀ (before after : List Tab) (groups groups' : List Group), groups.Perm groups' →
        sameSet (extractPagesFromDocs ⟨⟨before ++ ⟨groups⟩ :: after⟩⟩)
            (extractPagesFromDocs ⟨⟨before ++ ⟨groups'⟩ :: after⟩⟩) ∧
          (extractPagesFromDocs ⟨⟨before ++ ⟨groups⟩ :: after⟩⟩).Perm
            (extractPagesFromDocs ⟨⟨before ++ ⟨groups'⟩ :: after⟩⟩)) ∧
      (∀ (before after : List Tab) (gbefore gafter : List Group) (pages pages' : List Str),
        pages.Perm pages' →
        sameSet
            (extractPagesFromDocs
              ⟨⟨before ++ ⟨gbefore ++ ⟨pages⟩ :: gafter⟩ :: after⟩⟩)
            (extractPagesFromDocs
              ⟨⟨before ++ ⟨gbefore ++ ⟨pages'⟩ :: gafter⟩ :: after⟩⟩) ∧
          (extractPagesFromDocs
              ⟨⟨before ++ ⟨gbefore ++ ⟨pages⟩ :: gafter⟩ :: after⟩⟩).Perm
            (extractPagesFromDocs
              ⟨⟨before ++ ⟨gbefore ++ ⟨pages'⟩ :: gafter⟩ :: after⟩⟩)) := by
  refine ⟨?_, ?_, ?_⟩
  · intro tabs tabs' hperm
    refine sameSet_of_navPages _ _ ?_
    intro p
    simp only [mem_navPages, hperm.mem_iff]
  · intro before after groups groups' hperm
    refine sameSet_of_navPages _ _ ?_
    intro p
    simp only [mem_navPages, List.mem_append, List.mem_cons]
    constructor
    · rintro ⟨tab, (ht | ht | ht), group, hg, hp⟩
      · exact ⟨tab, Or.inl ht, group, hg, hp⟩
      · subst ht
        exact ⟨⟨groups'⟩, Or.inr (Or.inl rfl), group, hperm.mem_iff.mp hg, hp⟩
      · exact ⟨tab, Or.inr (Or.inr ht), group, hg, hp⟩
    · rintro ⟨tab, (ht | ht | ht), group, hg, hp⟩
      · exact ⟨tab, Or.inl ht, group, hg, hp⟩
      · subst ht
        exact ⟨⟨groups⟩, Or.inr (Or.inl rfl), group, hperm.mem_iff.mpr hg, hp⟩
      · exact ⟨tab, Or.inr (Or.inr ht), group, hg, hp⟩
  · intro before after gbefore gafter pages pages' hperm
    refine sameSet_of_navPages _ _ ?_
    intro p
    simp only [mem_navPages, List.mem_append, List.mem_cons]
    constructor
    · rintro ⟨tab, (ht | ht | ht), group, hg, hp⟩
      · exact ⟨tab, Or.inl ht, group, hg, hp⟩
      · subst ht
        simp only [List.mem_append, List.mem_cons] at hg
        rcases hg with hg | hg | hg
        · exact ⟨_, Or.inr (Or.inl rfl), group,
            List.mem_append.mpr (Or.inl hg), hp⟩
        · subst hg
          exact ⟨_, Or.inr (Or.inl rfl), ⟨pages'⟩,
            List.mem_append.mpr (Or.inr (List.mem_cons_self _ _)), hperm.mem_iff.mp hp⟩
        · exact ⟨_, Or.inr (Or.inl rfl), group,
            List.mem_append.mpr (Or.inr (List.mem_cons_of_mem _ hg)), hp⟩
      · exact ⟨tab, Or.inr (Or.inr ht), group, hg, hp⟩
    · rintro ⟨tab, (ht | ht | ht), group, hg, hp⟩
      · exact ⟨tab, Or.inl ht, group, hg, hp⟩
      · subst ht
        simp only [List.mem_append, List.mem_cons] at hg
        rcases hg with hg | hg | hg
        · exact ⟨_, Or.inr (Or.inl rfl), group,
            List.mem_append.mpr (Or.inl hg), hp⟩
        · subst hg
          exact ⟨_, Or.inr (Or.inl rfl), ⟨pages⟩,
            List.mem_append.mpr (Or.inr (List.mem_cons_self _ _)), hperm.mem_iff.mpr hp⟩
        · exact ⟨_, Or.inr (Or.inl rfl), group,
            List.mem_append.mpr (Or.inr (List.mem_cons_of_mem _ hg)), hp⟩
      · exact ⟨tab, Or.inr (Or.inr ht), group, hg, hp⟩

/-- Witness for C16: two tabs exchanged. -/
theorem extractPagesFromDocs_reorder_witness :
    sameSet
        (extractPagesFromDocs
          ⟨⟨[⟨[⟨["a".toList]⟩]⟩, ⟨[⟨["b/index".toList]⟩]⟩]⟩⟩)
        (extractPagesFromDocs
          ⟨⟨[⟨[⟨["b/index".toList]⟩]⟩, ⟨[⟨["a".toList]⟩]⟩]⟩⟩) ∧
      (extractPagesFromDocs
          ⟨⟨[⟨[⟨["a".toList]⟩]⟩, ⟨[⟨["b/index".toList]⟩]⟩]⟩⟩).Perm
        (extractPagesFromDocs
          ⟨⟨[⟨[⟨["b/index".toList]⟩]⟩, ⟨[⟨["a".toList]⟩]⟩]⟩⟩) :=
  extractPagesFromDocs_reorder.1 _ _ (List.Perm.swap _ _ [])


/-! ## Reading a rendered text back: splitting at a separator -/

theorem splitChar_ne_nil (sep : Char) (s : Str) : splitChar sep s ≠ [] := by
  induction s with
  | nil => simp [splitChar]
  | cons c cs ih =>
    unfold splitChar
    split
    · simp
    · split <;> simp

theorem splitChar_append_sep (sep : Char) (a b : Str) :
    splitChar sep (a ++ sep :: b) = splitChar sep a ++ splitChar sep b := by
  induction a with
  | nil => simp [splitChar]
  | cons c cs ih =>
    by_cases hc : c = sep
    · simp [splitChar, hc, ih]
    · cases hs : splitChar sep cs with
      | nil => exact absurd hs (splitChar_ne_nil sep cs)
      | cons l ls => simp [splitChar, hc, ih, hs]

theorem splitChar_of_not_mem (sep : Char) (a : Str) (h : sep ∉ a) :
    splitChar sep a = [a] := by
  induction a with
  | nil => rfl
  | cons c cs ih =>
    have hc : c ≠ sep := fun e => h (by rw [e]; exact List.mem_cons_self _ _)
    have hcs : sep ∉ cs := fun e => h (List.mem_cons_of_mem _ e)
    simp [splitChar, hc, ih hcs]

theorem splitChar_cons_sep (sep : Char) (a b : Str) (h : sep ∉ a) :
    splitChar sep (a ++ sep :: b) = a :: splitChar sep b := by
  rw [splitChar_append_sep, splitChar_of_not_mem sep a h]
  rfl


/-! ## Reading the sitemap back -/

theorem locEntries_append (a b : Str) :
    locEntries (a ++ '<' :: b) = locEntries a ++ locEntries b := by
  unfold locEntries
  rw [splitChar_append_sep, List.filterMap_append]

theorem urlBlockCount_append (a b : Str) :
    urlBlockCount (a ++ '<' :: b) = urlBlockCount a + urlBlockCount b := by
  unfold urlBlockCount
  rw [splitChar_append_sep, List.filter_append, List.length_append]

theorem not_mem_getPriority (page : Str) : '<' ∉ getPriority page := by
  unfold getPriority
  split
  · decide
  · split
    · decide
    · split <;> decide

theorem urlBlock_append_eq (d p T : Str) :
    urlBlock d p ++ T =
      [] ++ '<' :: ("url>\n  ".toList ++ '<' :: (("loc>".toList ++ (BASE_URL ++ p))
        ++ '<' :: ("/loc>\n  ".toList ++ '<' :: (("lastmod>".toList ++ d)
        ++ '<' :: ("/lastmod>\n  ".toList ++ '<' :: (("priority>".toList ++ getPriority p)
        ++ '<' :: ("/priority>\n".toList ++ '<' :: ("/url>\n".toList ++ T)))))))) := by
  simp [urlBlock, List.append_assoc]

theorem splitChar_urlBlock (d p X T : Str) (hX : '<' ∉ X) (hd : '<' ∉ d) (hp : '<' ∉ p) :
    splitChar '<' (X ++ (urlBlock d p ++ T)) =
      [X, "url>\n  ".toList, "loc>".toList ++ (BASE_URL ++ p), "/loc>\n  ".toList,
        "lastmod>".toList ++ d, "/lastmod>\n  ".toList, "priority>".toList ++ getPriority p,
        "/priority>\n".toList] ++ splitChar '<' ("/url>\n".toList ++ T) := by
  have h1 : '<' ∉ "url>\n  ".toList := by decide
  have h2 : '<' ∉ "loc>".toList ++ (BASE_URL ++ p) := by
    intro h
    rcases List.mem_append.mp h with h | h
    · revert h; decide
    · rcases List.mem_append.mp h with h | h
      · revert h; decide
      · exact hp h
  have h3 : '<' ∉ "/loc>\n  ".toList := by decide
  have h4 : '<' ∉ "lastmod>".toList ++ d := by
    intro h
    rcases List.mem_append.mp h with h | h
    · revert h; decide
    · exact hd h
  have h5 : '<' ∉ "/lastmod>\n  ".toList := by decide
  have h6 : '<' ∉ "priority>".toList ++ getPriority p := by
    intro h
    rcases List.mem_append.mp h with h | h
    · revert h; decide
    · exact not_mem_getPriority p h
  have h7 : '<' ∉ "/priority>\n".toList := by decide
  rw [urlBlock_append_eq, List.nil_append, splitChar_cons_sep _ _ _ hX,
    splitChar_cons_sep _ _ _ h1, splitChar_cons_sep _ _ _ h2, splitChar_cons_sep _ _ _ h3,
    splitChar_cons_sep _ _ _ h4, splitChar_cons_sep _ _ _ h5, splitChar_cons_sep _ _ _ h6,
    splitChar_cons_sep _ _ _ h7]
  rfl


theorem isPrefixOf_cons_ne (c x : Char) (pat X : Str) (h : x ≠ c) :
    (c :: pat).isPrefixOf (x :: X) = false := by
  have h' : ¬ c = x := fun e => h e.symm
  simp [List.isPrefixOf, h']

theorem read_blocks (d : Str) (hd : '<' ∉ d) (ps : List Str) (hps : ∀ p ∈ ps, '<' ∉ p) :
    ∀ (x : Char) (X : Str), x ≠ 'l' → x ≠ 'u' → '<' ∉ x :: X →
      locEntries ((x :: X) ++ ((ps.map (urlBlock d)).flatten ++ sitemapFooter))
          = ps.map (fun p => BASE_URL ++ p) ∧
        urlBlockCount ((x :: X) ++ ((ps.map (urlBlock d)).flatten ++ sitemapFooter))
          = ps.length := by
  induction ps with
  | nil =>
    intro x X hl hu hX
    have hsplit : (x :: X) ++ (([] : List Str).map (urlBlock d)).flatten ++ sitemapFooter
        = ((x :: X) ++ "\n\n\n".toList) ++ '<' :: "/urlset>".toList := by
      simp [sitemapFooter]
    have hfree : '<' ∉ (x :: X) ++ "\n\n\n".toList := by
      intro h
      rcases List.mem_append.mp h with h | h
      · exact hX h
      · revert h; decide
    have hpieces : splitChar '<' ((x :: X) ++ ((([] : List Str).map (urlBlock d)).flatten
        ++ sitemapFooter)) = [(x :: X) ++ "\n\n\n".toList, "/urlset>".toList] := by
      rw [← List.append_assoc, hsplit, splitChar_cons_sep _ _ _ hfree]
      rfl
    unfold locEntries urlBlockCount
    rw [hpieces]
    have hx1 : "loc>".toList.isPrefixOf ((x :: X) ++ "\n\n\n".toList) = false :=
      isPrefixOf_cons_ne 'l' x _ _ hl
    have hx2 : "url>".toList.isPrefixOf ((x :: X) ++ "\n\n\n".toList) = false :=
      isPrefixOf_cons_ne 'u' x _ _ hu
    have hy1 : "loc>".toList.isPrefixOf "/urlset>".toList = false := by decide
    have hy2 : "url>".toList.isPrefixOf "/urlset>".toList = false := by decide
    constructor
    · simp only [List.filterMap_cons, hx1, hy1, List.filterMap_nil, List.map_nil]
      rfl
    · simp only [List.filter_cons, hx2, hy2, List.filter_nil, List.length_nil]
      rfl
  | cons p ps ih =>
    intro x X hl hu hX
    have hp : '<' ∉ p := hps p (List.mem_cons_self _ _)
    have hps' : ∀ q ∈ ps, '<' ∉ q := fun q hq => hps q (List.mem_cons_of_mem _ hq)
    have hform : (x :: X) ++ (((p :: ps).map (urlBlock d)).flatten ++ sitemapFooter)
        = (x :: X) ++ (urlBlock d p ++ ((ps.map (urlBlock d)).flatten ++ sitemapFooter)) := by
      simp [List.append_assoc]
    have ih' := ih hps' '/' "url>\n".toList (by decide) (by decide) (by decide)
    have hpieces := splitChar_urlBlock d p (x :: X)
      ((ps.map (urlBlock d)).flatten ++ sitemapFooter) hX hd hp
    constructor
    · have h1 := ih'.1
      unfold locEntries at h1 ⊢
      rw [hform, hpieces, List.filterMap_append]
      have h1' : List.filterMap
          (fun piece => if "loc>".toList.isPrefixOf piece = true then some (List.drop 4 piece)
            else none)
          (splitChar '<' ("/url>\n".toList ++ ((ps.map (urlBlock d)).flatten ++ sitemapFooter)))
          = ps.map (fun p => BASE_URL ++ p) := h1
      rw [h1']
      have hprio : "loc>".toList.isPrefixOf ("priority>".toList ++ getPriority p) = false := by
        simp [List.isPrefixOf]
      have hlast : "loc>".toList.isPrefixOf ("lastmod>".toList ++ d) = false := by
        simp [List.isPrefixOf]
      have hloc : "loc>".toList.isPrefixOf ("loc>".toList ++ (BASE_URL ++ p)) = true := by
        simp [List.isPrefixOf]
      have hdrop : List.drop 4 ("loc>".toList ++ (BASE_URL ++ p)) = BASE_URL ++ p := rfl
      have hxp : "loc>".toList.isPrefixOf (x :: X) = false :=
        isPrefixOf_cons_ne 'l' x _ _ hl
      simp only [List.filterMap_cons, hxp, hprio, hlast, hloc, hdrop, List.filterMap_nil,
        List.map_cons]
      simp [List.isPrefixOf]
    · have h2 := ih'.2
      unfold urlBlockCount at h2 ⊢
      rw [hform, hpieces, List.filter_append, List.length_append]
      have h2' : (List.filter (fun piece => "url>".toList.isPrefixOf piece)
          (splitChar '<' ("/url>\n".toList
            ++ ((ps.map (urlBlock d)).flatten ++ sitemapFooter)))).length = ps.length := h2
      rw [h2']
      have hprio : "url>".toList.isPrefixOf ("priority>".toList ++ getPriority p) = false := by
        simp [List.isPrefixOf]
      have hlast : "url>".toList.isPrefixOf ("lastmod>".toList ++ d) = false := by
        simp [List.isPrefixOf]
      have hloc : "url>".toList.isPrefixOf ("loc>".toList ++ (BASE_URL ++ p)) = false := by
        simp [List.isPrefixOf]
      have hxp : "url>".toList.isPrefixOf (x :: X) = false :=
        isPrefixOf_cons_ne 'u' x _ _ hu
      simp only [List.filter_cons, hxp, hprio, hlast, hloc, List.filter_nil, List.length_cons]
      simp [List.isPrefixOf]
      omega

theorem sitemapHeader_eq (d : Str) :
    sitemapHeader d =
      "<?xml version=\"1.0\" encoding=\"UTF-8\"?>\n<urlset\n      xmlns=\"http://www.sitemaps.org/schemas/sitemap/0.9\"\n      xmlns:xsi=\"http://www.w3.org/2001/XMLSchema-instance\"\n      xsi:schemaLocation=\"http://www.sitemaps.org/schemas/sitemap/0.9\n            http://www.sitemaps.org/schemas/sitemap/0.9/sitemap.xsd\">\n".toList
        ++ '<' :: ('!' :: ("-- Auto-generated sitemap - Generated on ".toList ++ d
          ++ " -->\n\n\n".toList)) := by
  simp [sitemapHeader, List.append_assoc]

/-- Reading back a document made of the header, the `url` blocks of the paths `ps` and the
footer, when neither the date nor a path holds `<`: the `loc` elements hold the base URL
followed by each path, in order, and there is one `url` tag per path. -/
theorem read_sitemap (d : Str) (hd : '<' ∉ d) (ps : List Str) (hps : ∀ p ∈ ps, '<' ∉ p) :
    locEntries (sitemapHeader d ++ (ps.map (urlBlock d)).flatten ++ sitemapFooter)
        = ps.map (fun p => BASE_URL ++ p) ∧
      urlBlockCount (sitemapHeader d ++ (ps.map (urlBlock d)).flatten ++ sitemapFooter)
        = ps.length := by
  have hX : '<' ∉ '!' :: ("-- Auto-generated sitemap - Generated on ".toList ++ d
      ++ " -->\n\n\n".toList) := by
    intro h
    rcases List.mem_cons.mp h with h | h
    · revert h; decide
    · rcases List.mem_append.mp h with h | h
      · rcases List.mem_append.mp h with h | h
        · revert h; decide
        · exact hd h
      · revert h; decide
  have hread := read_blocks d hd ps hps '!' _ (by decide) (by decide) hX
  have hform : sitemapHeader d ++ (ps.map (urlBlock d)).flatten ++ sitemapFooter
      = "<?xml version=\"1.0\" encoding=\"UTF-8\"?>\n<urlset\n      xmlns=\"http://www.sitemaps.org/schemas/sitemap/0.9\"\n      xmlns:xsi=\"http://www.w3.org/2001/XMLSchema-instance\"\n      xsi:schemaLocation=\"http://www.sitemaps.org/schemas/sitemap/0.9\n            http://www.sitemaps.org/schemas/sitemap/0.9/sitemap.xsd\">\n".toList
        ++ '<' :: (('!' :: ("-- Auto-generated sitemap - Generated on ".toList ++ d
          ++ " -->\n\n\n".toList)) ++ ((ps.map (urlBlock d)).flatten ++ sitemapFooter)) := by
    rw [sitemapHeader_eq]
    simp [List.append_assoc]
  rw [hform, locEntries_append, urlBlockCount_append, hread.1, hread.2]
  constructor
  · have : locEntries "<?xml version=\"1.0\" encoding=\"UTF-8\"?>\n<urlset\n      xmlns=\"http://www.sitemaps.org/schemas/sitemap/0.9\"\n      xmlns:xsi=\"http://www.w3.org/2001/XMLSchema-instance\"\n      xsi:schemaLocation=\"http://www.sitemaps.org/schemas/sitemap/0.9\n            http://www.sitemaps.org/schemas/sitemap/0.9/sitemap.xsd\">\n".toList = [] := by
      decide
    rw [this]
    rfl
  · have : urlBlockCount "<?xml version=\"1.0\" encoding=\"UTF-8\"?>\n<urlset\n      xmlns=\"http://www.sitemaps.org/schemas/sitemap/0.9\"\n      xmlns:xsi=\"http://www.w3.org/2001/XMLSchema-instance\"\n      xsi:schemaLocation=\"http://www.sitemaps.org/schemas/sitemap/0.9\n            http://www.sitemaps.org/schemas/sitemap/0.9/sitemap.xsd\">\n".toList = 0 := by
      decide
    rw [this]
    omega


/-! ## The collation is a consistent comparator -/

theorem collationCompare_le_iff (a b : Str) :
    collationCompare a b ≤ 0 ↔
      foldCase a < foldCase b ∨ (foldCase a = foldCase b ∧ b ≤ a) := by
  unfold collationCompare
  by_cases h1 : foldCase a < foldCase b
  · simp [h1]
  · by_cases h2 : foldCase b < foldCase a
    · have hne : foldCase a ≠ foldCase b := fun e => by rw [e] at h2; exact lt_irrefl _ h2
      simp [h1, h2, hne]
    · have heq : foldCase a = foldCase b := le_antisymm (not_lt.mp h2) (not_lt.mp h1)
      by_cases h3 : b < a
      · simp [h1, h2, h3, heq, le_of_lt h3]
      · by_cases h4 : a < b
        · simp [h1, h2, h3, h4, heq]
        · have hab : a = b := le_antisymm (not_lt.mp h3) (not_lt.mp h4)
          simp [h1, h2, h3, heq, hab]

theorem collationCompare_lt_iff (a b : Str) :
    collationCompare a b < 0 ↔
      foldCase a < foldCase b ∨ (foldCase a = foldCase b ∧ b < a) := by
  unfold collationCompare
  by_cases h1 : foldCase a < foldCase b
  · simp [h1]
  · by_cases h2 : foldCase b < foldCase a
    · have hne : foldCase a ≠ foldCase b := fun e => by rw [e] at h2; exact lt_irrefl _ h2
      simp [h1, h2, hne]
    · have heq : foldCase a = foldCase b := le_antisymm (not_lt.mp h2) (not_lt.mp h1)
      by_cases h3 : b < a
      · simp [h1, h2, h3, heq]
      · by_cases h4 : a < b
        · simp [h1, h2, h3, h4, heq]
        · simp [h1, h2, h3, h4, heq]

theorem collationCompare_pos_iff (a b : Str) :
    0 < collationCompare a b ↔
      foldCase b < foldCase a ∨ (foldCase a = foldCase b ∧ a < b) := by
  unfold collationCompare
  by_cases h1 : foldCase a < foldCase b
  · have h2 : ¬ foldCase b < foldCase a := lt_asymm h1
    have hne : foldCase a ≠ foldCase b := fun e => by rw [e] at h1; exact lt_irrefl _ h1
    simp [h1, h2, hne]
  · by_cases h2 : foldCase b < foldCase a
    · simp [h1, h2]
    · have heq : foldCase a = foldCase b := le_antisymm (not_lt.mp h2) (not_lt.mp h1)
      by_cases h3 : b < a
      · have h4 : ¬ a < b := lt_asymm h3
        simp [h1, h2, h3, h4, heq]
      · by_cases h4 : a < b
        · simp [h1, h2, h3, h4, heq]
        · simp [h1, h2, h3, h4, heq]

theorem collationCompare_consistent : ConsistentComparator collationCompare where
  refl a := by simp [collationCompare]
  antisymm a b := by
    rw [collationCompare_lt_iff, collationCompare_pos_iff]
    constructor
    · rintro (h | ⟨h1, h2⟩)
      · exact Or.inl h
      · exact Or.inr ⟨h1.symm, h2⟩
    · rintro (h | ⟨h1, h2⟩)
      · exact Or.inl h
      · exact Or.inr ⟨h1.symm, h2⟩
  trans a b c := by
    rw [collationCompare_le_iff, collationCompare_le_iff, collationCompare_le_iff]
    rintro (h1 | ⟨h1, h2⟩) (h3 | ⟨h3, h4⟩)
    · exact Or.inl (lt_trans h1 h3)
    · exact Or.inl (h3 ▸ h1)
    · exact Or.inl (h1 ▸ h3)
    · exact Or.inr ⟨h1.trans h3, le_trans h4 h2⟩


/-! ## Claims on the rendered sitemap -/

theorem generateSitemap_eq_blocks (localeCompare : Str → Str → Int) (currentDate : Str)
    (pages : List Str) :
    generateSitemap localeCompare currentDate pages =
      sitemapHeader currentDate
        ++ ((sortPages localeCompare pages).map (urlBlock currentDate)).flatten
        ++ sitemapFooter := by
  unfold generateSitemap
  rw [foldl_urlBlock]

/-- C1, as stated, fails under a collation that compares without regard to case first: the
duplicate-free list `/Zeta`, `/B`, `/`, `/b` is rendered in the order `/`, `/b`, `/B`,
`/Zeta`, and the paths after `/` are not in non-decreasing lexicographic order, `/b` standing
before `/B`. -/
theorem sitemap_order_not_lexicographic :
    ["/Zeta".toList, "/B".toList, "/".toList, "/b".toList].Nodup ∧
      "/".toList ∈ ["/Zeta".toList, "/B".toList, "/".toList, "/b".toList] ∧
      sortPages collationCompare ["/Zeta".toList, "/B".toList, "/".toList, "/b".toList]
        = ["/".toList, "/b".toList, "/B".toList, "/Zeta".toList] ∧
      locEntries (generateSitemap collationCompare "2024-05-05T00:00:00.000Z".toList
          ["/Zeta".toList, "/B".toList, "/".toList, "/b".toList])
        = ["https://www.fastapps.org/".toList, "https://www.fastapps.org/b".toList,
           "https://www.fastapps.org/B".toList, "https://www.fastapps.org/Zeta".toList] ∧
      ¬ (sortPages collationCompare
          ["/Zeta".toList, "/B".toList, "/".toList, "/b".toList]).tail.Pairwise
        (fun a b => a ≤ b) := by
  decide

/-- C1, amended: for a duplicate-free list of page paths that contains the root path, the
rendered sitemap is the header, one `url` block per path holding the base URL followed by the
path in its `loc` element, and the footer; the first path is the root path, the paths after
it are in non-decreasing order of the host collation `localeCompare`, and they are the paths
given; when neither the date nor a path holds `<`, the `loc` elements read back from the text
are the base URL followed by these paths, in that order. -/
theorem generateSitemap_root_first_then_sorted (localeCompare : Str → Str → Int)
    (hcmp : ConsistentComparator localeCompare) (currentDate : Str) (pages : List Str)
    (hnodup : pages.Nodup) (hroot : "/".toList ∈ pages) :
    generateSitemap localeCompare currentDate pages =
        sitemapHeader currentDate
          ++ ((sortPages localeCompare pages).map (fun page =>
                "<url>\n  <loc>".toList ++ BASE_URL ++ page ++ "</loc>\n  <lastmod>".toList
                  ++ currentDate ++ "</lastmod>\n  <priority>".toList ++ getPriority page
                  ++ "</priority>\n</url>\n".toList)).flatten
          ++ sitemapFooter ∧
      (sortPages localeCompare pages).head? = some "/".toList ∧
      (sortPages localeCompare pages).tail.Pairwise (fun a b => localeCompare a b ≤ 0) ∧
      (sortPages localeCompare pages).Perm pages ∧
      ('<' ∉ currentDate → (∀ page ∈ pages, '<' ∉ page) →
        locEntries (generateSitemap localeCompare currentDate pages)
            = (sortPages localeCompare pages).map (fun page => BASE_URL ++ page) ∧
          (locEntries (generateSitemap localeCompare currentDate pages)).head?
            = some (BASE_URL ++ "/".toList)) := by
  have hperm : (sortPages localeCompare pages).Perm pages := arraySort_perm _ pages
  have hsorted : (sortPages localeCompare pages).Pairwise
      (fun a b => pageCompare localeCompare a b ≤ 0) :=
    arraySort_sorted _ (pageCompare_total hcmp) (pageCompare_trans hcmp) pages
  have hnd : (sortPages localeCompare pages).Nodup := hperm.nodup_iff.mpr hnodup
  have hmem : ['/'] ∈ sortPages localeCompare pages := hperm.mem_iff.mpr hroot
  have hhead : (sortPages localeCompare pages).head? = some "/".toList := by
    cases hs : sortPages localeCompare pages with
    | nil => rw [hs] at hmem; cases hmem
    | cons x xs =>
      rw [hs] at hsorted hmem
      rw [List.pairwise_cons] at hsorted
      by_cases hx : x = ['/']
      · simp [hx]
      · exfalso
        rcases List.mem_cons.mp hmem with h | h
        · exact hx h.symm
        · have := hsorted.1 _ h
          simp [pageCompare, hx] at this
  refine ⟨generateSitemap_eq_blocks _ _ _, hhead, ?_, hperm, ?_⟩
  · cases hs : sortPages localeCompare pages with
    | nil => simp
    | cons x xs =>
      rw [hs] at hsorted hmem hnd hhead
      rw [List.pairwise_cons] at hsorted
      rw [List.nodup_cons] at hnd
      have hx : x = ['/'] := by simpa using hhead
      simp only [List.tail_cons]
      refine hsorted.2.imp_of_mem ?_
      intro a b ha hb hab
      have ha' : a ≠ ['/'] := by
        intro h; rw [h, ← hx] at ha; exact hnd.1 ha
      have hb' : b ≠ ['/'] := by
        intro h; rw [h, ← hx] at hb; exact hnd.1 hb
      simpa [pageCompare, ha', hb'] using hab
  · intro hd hpages
    have hps : ∀ p ∈ sortPages localeCompare pages, '<' ∉ p :=
      fun p hp => hpages p (hperm.mem_iff.mp hp)
    have hread := (read_sitemap currentDate hd (sortPages localeCompare pages) hps).1
    rw [generateSitemap_eq_blocks, hread]
    refine ⟨rfl, ?_⟩
    rw [List.head?_map, hhead]
    rfl

/-- Witness for C1: the paths `/b`, `/`, `/a` under the character-sequence comparator. -/
theorem generateSitemap_root_first_then_sorted_witness :
    (sortPages codePointCompare ["/b".toList, "/".toList, "/a".toList]).head?
        = some "/".toList ∧
      (sortPages codePointCompare ["/b".toList, "/".toList, "/a".toList]).tail.Pairwise
        (fun a b => codePointCompare a b ≤ 0) ∧
      locEntries (generateSitemap codePointCompare "T".toList
          ["/b".toList, "/".toList, "/a".toList])
        = (sortPages codePointCompare ["/b".toList, "/".toList, "/a".toList]).map
            (fun page => BASE_URL ++ page) :=
  ⟨(generateSitemap_root_first_then_sorted codePointCompare codePointCompare_consistent
      "T".toList ["/b".toList, "/".toList, "/a".toList] (by decide) (by decide)).2.1,
   (generateSitemap_root_first_then_sorted codePointCompare codePointCompare_consistent
      "T".toList ["/b".toList, "/".toList, "/a".toList] (by decide) (by decide)).2.2.1,
   ((generateSitemap_root_first_then_sorted codePointCompare codePointCompare_consistent
      "T".toList ["/b".toList, "/".toList, "/a".toList] (by decide) (by decide)).2.2.2.2
        (by decide) (by decide)).1⟩

/-- C17: the paths rendered in the sitemap are exactly the extracted pages together with the
post urls: a path is rendered if and only if it is one of them, no path is rendered twice,
the document is the header, one `url` block per rendered path holding the base URL followed
by the path in its `loc` element, and the footer, and the number of rendered paths is the
number of distinct paths among the extracted pages and the post urls; when neither the date
nor a path holds `<`, the `loc` elements read back from the text are the base URL followed by
the rendered paths, and the number of `url` tags of the text is that number of distinct
paths. -/
theorem sitemap_paths_exact (localeCompare : Str → Str → Int) (currentDate : Str)
    (docsConfig : DocsConfig) (blogPosts : List PostRecord) :
    (∀ y, y ∈ sortPages localeCompare (uniquePages (extractPagesFromDocs docsConfig)
            (blogPosts.map (fun post => post.url))) ↔
        y ∈ extractPagesFromDocs docsConfig ∨ y ∈ blogPosts.map (fun post => post.url)) ∧
      (sortPages localeCompare (uniquePages (extractPagesFromDocs docsConfig)
        (blogPosts.map (fun post => post.url)))).Nodup ∧
      generateSitemap localeCompare currentDate
          (uniquePages (extractPagesFromDocs docsConfig) (blogPosts.map (fun post => post.url)))
        = sitemapHeader currentDate
          ++ ((sortPages localeCompare (uniquePages (extractPagesFromDocs docsConfig)
                (blogPosts.map (fun post => post.url)))).map (fun page =>
                "<url>\n  <loc>".toList ++ BASE_URL ++ page ++ "</loc>\n  <lastmod>".toList
                  ++ currentDate ++ "</lastmod>\n  <priority>".toList ++ getPriority page
                  ++ "</priority>\n</url>\n".toList)).flatten
          ++ sitemapFooter ∧
      (sortPages localeCompare (uniquePages (extractPagesFromDocs docsConfig)
          (blogPosts.map (fun post => post.url)))).length
        = (extractPagesFromDocs docsConfig
            ++ blogPosts.map (fun post => post.url)).toFinset.card ∧
      ('<' ∉ currentDate →
        (∀ y ∈ extractPagesFromDocs docsConfig ++ blogPosts.map (fun post => post.url),
          '<' ∉ y) →
        locEntries (generateSitemap localeCompare currentDate
            (uniquePages (extractPagesFromDocs docsConfig)
              (blogPosts.map (fun post => post.url))))
          = (sortPages localeCompare (uniquePages (extractPagesFromDocs docsConfig)
              (blogPosts.map (fun post => post.url)))).map (fun page => BASE_URL ++ page) ∧
        urlBlockCount (generateSitemap localeCompare currentDate
            (uniquePages (extractPagesFromDocs docsConfig)
              (blogPosts.map (fun post => post.url))))
          = (extractPagesFromDocs docsConfig
              ++ blogPosts.map (fun post => post.url)).toFinset.card) := by
  have hperm := arraySort_perm (pageCompare localeCompare)
    (uniquePages (extractPagesFromDocs docsConfig) (blogPosts.map (fun post => post.url)))
  have hnd : (sortPages localeCompare (uniquePages (extractPagesFromDocs docsConfig)
      (blogPosts.map (fun post => post.url)))).Nodup :=
    hperm.nodup_iff.mpr (nodup_setOfList _)
  have hmem : ∀ y, y ∈ sortPages localeCompare (uniquePages (extractPagesFromDocs docsConfig)
        (blogPosts.map (fun post => post.url))) ↔
      y ∈ extractPagesFromDocs docsConfig ∨ y ∈ blogPosts.map (fun post => post.url) := by
    intro y
    unfold sortPages
    rw [hperm.mem_iff]
    unfold uniquePages
    rw [mem_setOfList, List.mem_append]
  have hcard : (sortPages localeCompare (uniquePages (extractPagesFromDocs docsConfig)
        (blogPosts.map (fun post => post.url)))).length
      = (extractPagesFromDocs docsConfig
          ++ blogPosts.map (fun post => post.url)).toFinset.card := by
    rw [← List.toFinset_card_of_nodup hnd]
    congr 1
    ext y
    rw [List.mem_toFinset, List.mem_toFinset, hmem, List.mem_append]
  refine ⟨hmem, hnd, generateSitemap_eq_blocks _ _ _, hcard, ?_⟩
  intro hd hpaths
  have hps : ∀ p ∈ sortPages localeCompare (uniquePages (extractPagesFromDocs docsConfig)
      (blogPosts.map (fun post => post.url))), '<' ∉ p := by
    intro p hp
    exact hpaths p (List.mem_append.mpr ((hmem p).mp hp))
  have hread := read_sitemap currentDate hd _ hps
  rw [generateSitemap_eq_blocks, hread.1, hread.2]
  exact ⟨rfl, hcard⟩

/-- Witness for C17: the page `blog/index` and the post `/blog/a`, which the navigation lists
as well. -/
theorem sitemap_paths_exact_witness :
    locEntries (generateSitemap codePointCompare "T".toList
        (uniquePages
          (extractPagesFromDocs ⟨⟨[⟨[⟨["blog/index".toList, "blog/a".toList]⟩]⟩]⟩⟩)
          ([fallbackRecord "2024-05-05".toList "a".toList].map (fun post => post.url))))
      = (sortPages codePointCompare (uniquePages
          (extractPagesFromDocs ⟨⟨[⟨[⟨["blog/index".toList, "blog/a".toList]⟩]⟩]⟩⟩)
          ([fallbackRecord "2024-05-05".toList "a".toList].map
            (fun post => post.url)))).map (fun page => BASE_URL ++ page) ∧
      urlBlockCount (generateSitemap codePointCompare "T".toList
        (uniquePages
          (extractPagesFromDocs ⟨⟨[⟨[⟨["blog/index".toList, "blog/a".toList]⟩]⟩]⟩⟩)
          ([fallbackRecord "2024-05-05".toList "a".toList].map (fun post => post.url))))
      = (extractPagesFromDocs ⟨⟨[⟨[⟨["blog/index".toList, "blog/a".toList]⟩]⟩]⟩⟩
          ++ [fallbackRecord "2024-05-05".toList "a".toList].map
            (fun post => post.url)).toFinset.card :=
  (sitemap_paths_exact codePointCompare "T".toList
    ⟨⟨[⟨[⟨["blog/index".toList, "blog/a".toList]⟩]⟩]⟩⟩
    [fallbackRecord "2024-05-05".toList "a".toList]).2.2.2.2 (by decide) (by decide)


/-! ## Reading the listing back: decimal numbers and lines -/

theorem digitChar_ne (k : Nat) (hk : k < 10) :
    Nat.digitChar k ≠ '\n' ∧ Nat.digitChar k ≠ ' ' := by
  interval_cases k <;> decide

theorem toDigitsCore_chars (fuel : Nat) :
    ∀ (n : Nat) (ds : List Char), (∀ c ∈ ds, c ≠ '\n' ∧ c ≠ ' ') →
      ∀ c ∈ Nat.toDigitsCore 10 fuel n ds, c ≠ '\n' ∧ c ≠ ' ' := by
  induction fuel with
  | zero =>
    intro n ds hds c hc
    simp only [Nat.toDigitsCore] at hc
    exact hds c hc
  | succ fuel ih =>
    intro n ds hds c hc
    have hd : ∀ c ∈ Nat.digitChar (n % 10) :: ds, c ≠ '\n' ∧ c ≠ ' ' := by
      intro c hc
      rcases List.mem_cons.mp hc with h | h
      · rw [h]; exact digitChar_ne _ (Nat.mod_lt _ (by decide))
      · exact hds c h
    simp only [Nat.toDigitsCore] at hc
    split at hc
    · exact hd c hc
    · exact ih _ _ hd c hc

theorem toDigitsCore_ne_nil (fuel : Nat) :
    ∀ (n : Nat) (ds : List Char), ds ≠ [] → Nat.toDigitsCore 10 fuel n ds ≠ [] := by
  induction fuel with
  | zero =>
    intro n ds hds
    simpa only [Nat.toDigitsCore] using hds
  | succ fuel ih =>
    intro n ds _
    simp only [Nat.toDigitsCore]
    split
    · exact List.cons_ne_nil _ _
    · exact ih _ _ (List.cons_ne_nil _ _)

theorem repr_chars (n : Nat) : ∀ c ∈ (Nat.repr n).toList, c ≠ '\n' ∧ c ≠ ' ' := by
  intro c hc
  have h : (Nat.repr n).toList = Nat.toDigitsCore 10 (n + 1) n [] := rfl
  rw [h] at hc
  exact toDigitsCore_chars _ _ _ (fun _ h => absurd h (List.not_mem_nil _)) c hc

theorem repr_ne_nil (n : Nat) : (Nat.repr n).toList ≠ [] := by
  have h : (Nat.repr n).toList = Nat.toDigitsCore 10 (n + 1) n [] := rfl
  rw [h]
  simp only [Nat.toDigitsCore]
  split
  · exact List.cons_ne_nil _ _
  · exact toDigitsCore_ne_nil _ _ _ (List.cons_ne_nil _ _)

theorem splitChar_lines (ls : List Str) (hls : ∀ l ∈ ls, '\n' ∉ l) (T : Str) :
    splitChar '\n' ((ls.map (fun l => l ++ ['\n'])).flatten ++ T) = ls ++ splitChar '\n' T := by
  induction ls with
  | nil => rfl
  | cons l ls ih =>
    have hl : '\n' ∉ l := hls l (List.mem_cons_self _ _)
    have hform : (((l :: ls).map (fun l => l ++ ['\n'])).flatten ++ T)
        = l ++ '\n' :: ((ls.map (fun l => l ++ ['\n'])).flatten ++ T) := by
      simp [List.append_assoc]
    rw [hform, splitChar_cons_sep _ _ _ hl, ih (fun x hx => hls x (List.mem_cons_of_mem _ hx))]
    rfl

theorem listedUrls_lines (ls : List Str) (hls : ∀ l ∈ ls, '\n' ∉ l) (T : Str) :
    listedUrls ((ls.map (fun l => l ++ ['\n'])).flatten ++ T)
      = ls.filterMap urlOfLine ++ listedUrls T := by
  unfold listedUrls
  rw [splitChar_lines ls hls T, List.filterMap_append]

theorem listedUrls_append (a b : Str) :
    listedUrls (a ++ '\n' :: b) = listedUrls a ++ listedUrls b := by
  unfold listedUrls
  rw [splitChar_append_sep, List.filterMap_append]


/-! ## Reading the listing back: the entries -/

theorem renderPost_eq_lines (formatDate : Str → Str) (index : Nat) (post : PostRecord)
    (items : List Str) (htags : post.tags = Value.arr items) :
    renderPost formatDate index post
      = some (((entryLines formatDate index post).map (fun l => l ++ ['\n'])).flatten) := by
  unfold renderPost entryLines
  rw [htags]
  cases items with
  | nil =>
    by_cases hd : isTruthy post.description = true
    · simp [renderTags, hd, List.append_assoc]
    · simp [renderTags, hd, List.append_assoc]
  | cons t ts =>
    by_cases hd : isTruthy post.description = true
    · simp [renderTags, hd, List.append_assoc]
    · simp [renderTags, hd, List.append_assoc]

theorem not_mem_append_of (c : Char) (a b : Str) (ha : c ∉ a) (hb : c ∉ b) : c ∉ a ++ b := by
  intro h
  rcases List.mem_append.mp h with h | h
  · exact ha h
  · exact hb h

theorem entryLines_no_newline (formatDate : Str → Str) (index : Nat) (post : PostRecord)
    (h : isListable formatDate post) : ∀ l ∈ entryLines formatDate index post, '\n' ∉ l := by
  obtain ⟨⟨items, htags, hjoin⟩, htitle, hurl, hdate, hauthor, hdesc⟩ := h
  have hrepr : '\n' ∉ (Nat.repr (index + 1)).toList :=
    fun hc => (repr_chars _ _ hc).1 rfl
  have h1 : '\n' ∉ (Nat.repr (index + 1)).toList ++ ". **".toList
      ++ valueToString post.title ++ "**".toList :=
    not_mem_append_of _ _ _ (not_mem_append_of _ _ _
      (not_mem_append_of _ _ _ hrepr (by decide)) htitle) (by decide)
  have h2 : '\n' ∉ "   - **URL**: `".toList ++ post.url ++ "`".toList :=
    not_mem_append_of _ _ _ (not_mem_append_of _ _ _ (by decide) hurl) (by decide)
  have h3 : '\n' ∉ "   - **Date**: ".toList ++ formatDate (dateString post.date) :=
    not_mem_append_of _ _ _ (by decide) hdate
  have h4 : '\n' ∉ "   - **Author**: ".toList ++ valueToString post.author :=
    not_mem_append_of _ _ _ (by decide) hauthor
  have h5 : '\n' ∉ "   - **Description**: ".toList ++ valueToString post.description :=
    not_mem_append_of _ _ _ (by decide) hdesc
  have h6 : '\n' ∉ "   - **Tags**: ".toList ++ joinWith ", ".toList items :=
    not_mem_append_of _ _ _ (by decide) hjoin
  intro l hl
  unfold entryLines at hl
  rw [htags] at hl
  rw [List.mem_append, List.mem_append, List.mem_append] at hl
  rcases hl with ((hl | hl) | hl) | hl
  · simp only [List.mem_cons, List.mem_singleton, List.not_mem_nil, or_false] at hl
    rcases hl with hl | hl | hl | hl
    · rw [hl]; exact h1
    · rw [hl]; exact h2
    · rw [hl]; exact h3
    · rw [hl]; exact h4
  · cases items with
    | nil => exact absurd hl (List.not_mem_nil _)
    | cons t ts =>
      rw [List.mem_singleton.mp hl]; exact h6
  · split at hl
    · rw [List.mem_singleton.mp hl]; exact h5
    · exact absurd hl (List.not_mem_nil _)
  · rw [List.mem_singleton.mp hl]; exact List.not_mem_nil _

theorem urlOfLine_of_ne (c : Char) (rest : Str) (hc : c ≠ ' ') : urlOfLine (c :: rest) = none := by
  unfold urlOfLine
  rw [if_neg]
  rw [show "   - **URL**: `".toList = ' ' :: "  - **URL**: `".toList from rfl,
    isPrefixOf_cons_ne ' ' c _ _ hc]
  exact Bool.false_ne_true

theorem entryLines_urls (formatDate : Str → Str) (index : Nat) (post : PostRecord) :
    (entryLines formatDate index post).filterMap urlOfLine = [post.url] := by
  have h1 : urlOfLine ((Nat.repr (index + 1)).toList ++ ". **".toList
      ++ valueToString post.title ++ "**".toList) = none := by
    cases hr : (Nat.repr (index + 1)).toList with
    | nil => exact absurd hr (repr_ne_nil _)
    | cons c cs =>
      have hc : c ≠ ' ' := by
        have := repr_chars (index + 1) c (by rw [hr]; exact List.mem_cons_self _ _)
        exact this.2
      exact urlOfLine_of_ne c _ hc
  have h2 : urlOfLine ("   - **URL**: `".toList ++ post.url ++ "`".toList) = some post.url := by
    unfold urlOfLine
    have hp : "   - **URL**: `".toList.isPrefixOf
        ("   - **URL**: `".toList ++ post.url ++ "`".toList) = true := by
      rw [List.append_assoc]
      exact List.isPrefixOf_iff_prefix.mpr (List.prefix_append _ _)
    rw [if_pos hp]
    have hdrop : List.drop 15 ("   - **URL**: `".toList ++ post.url ++ "`".toList)
        = post.url ++ "`".toList := by
      rw [List.append_assoc]
      rfl
    rw [hdrop]
    simp
  have h3 : urlOfLine ("   - **Date**: ".toList ++ formatDate (dateString post.date)) = none := by
    unfold urlOfLine
    simp [List.isPrefixOf]
  have h4 : urlOfLine ("   - **Author**: ".toList ++ valueToString post.author) = none := by
    unfold urlOfLine
    simp [List.isPrefixOf]
  have h5 : urlOfLine ("   - **Description**: ".toList ++ valueToString post.description)
      = none := by
    unfold urlOfLine
    simp [List.isPrefixOf]
  have h6 : ∀ x, urlOfLine ("   - **Tags**: ".toList ++ x) = none := by
    intro x
    unfold urlOfLine
    simp [List.isPrefixOf]
  have h7 : urlOfLine [] = none := by decide
  unfold entryLines
  simp only [List.filterMap_append, List.filterMap_cons, List.filterMap_nil, h1, h2, h3, h4, h7]
  have ht : List.filterMap urlOfLine
      (match post.tags with
        | Value.arr (t :: ts) => ["   - **Tags**: ".toList ++ joinWith ", ".toList (t :: ts)]
        | _ => []) = [] := by
    split
    · simp only [List.filterMap_cons, List.filterMap_nil, h6]
    · rfl
  have hdsc : List.filterMap urlOfLine
      (if isTruthy post.description then
        ["   - **Description**: ".toList ++ valueToString post.description]
      else []) = [] := by
    split
    · simp only [List.filterMap_cons, List.filterMap_nil, h5]
    · rfl
  rw [ht, hdsc]
  rfl

theorem renderPosts_lines (formatDate : Str → Str) (posts : List PostRecord)
    (hlist : ∀ p ∈ posts, isListable formatDate p) :
    ∀ index, ∃ ls : List Str,
      renderPosts formatDate index posts = some ((ls.map (fun l => l ++ ['\n'])).flatten) ∧
        (∀ l ∈ ls, '\n' ∉ l) ∧ ls.filterMap urlOfLine = posts.map (fun p => p.url) := by
  induction posts with
  | nil =>
    intro index
    exact ⟨[], rfl, fun _ h => absurd h (List.not_mem_nil _), rfl⟩
  | cons p ps ih =>
    intro index
    have hp : isListable formatDate p := hlist p (List.mem_cons_self _ _)
    obtain ⟨ls, hls, hfree, hurls⟩ :=
      ih (fun q hq => hlist q (List.mem_cons_of_mem _ hq)) (index + 1)
    obtain ⟨items, htags, _⟩ := hp.1
    refine ⟨entryLines formatDate index p ++ ls, ?_, ?_, ?_⟩
    · unfold renderPosts
      rw [renderPost_eq_lines formatDate index p items htags, hls]
      simp [List.map_append, List.flatten_append]
    · intro l hl
      rcases List.mem_append.mp hl with h | h
      · exact entryLines_no_newline formatDate index p hp l h
      · exact hfree l h
    · rw [List.filterMap_append, entryLines_urls, hurls]
      rfl


/-! ## Reading the listing back: the guide -/

theorem renderPosts_eq_entries (formatDate : Str → Str) (posts : List PostRecord)
    (htags : ∀ p ∈ posts, ∃ items, p.tags = Value.arr items) :
    ∀ index, renderPosts formatDate index posts
      = some (((posts.enumFrom index).map (fun entry =>
          ((entryLines formatDate entry.1 entry.2).map (fun l => l ++ ['\n'])).flatten)).flatten) := by
  induction posts with
  | nil =>
    intro index
    rfl
  | cons p ps ih =>
    intro index
    obtain ⟨items, hp⟩ := htags p (List.mem_cons_self _ _)
    unfold renderPosts
    rw [renderPost_eq_lines formatDate index p items hp,
      ih (fun q hq => htags q (List.mem_cons_of_mem _ hq)) (index + 1)]
    rfl

theorem listedUrls_of_line (s : Str) (h : '\n' ∉ s) (hu : urlOfLine s = none) :
    listedUrls s = [] := by
  unfold listedUrls
  rw [splitChar_of_not_mem _ _ h]
  simp only [List.filterMap_cons, List.filterMap_nil, hu]

theorem lastLine_no_newline (currentDate : Str) (hdate : '\n' ∉ currentDate) :
    '\n' ∉ "*This guide is continuously updated to maintain the quality and consistency of the FastApps blog. Last updated: ".toList
      ++ currentDate ++ ['*'] :=
  not_mem_append_of _ _ _ (not_mem_append_of _ _ _ (by decide) hdate) (by decide)

theorem lastLine_no_url (currentDate : Str) :
    urlOfLine ("*This guide is continuously updated to maintain the quality and consistency of the FastApps blog. Last updated: ".toList
      ++ currentDate ++ ['*']) = none :=
  urlOfLine_of_ne '*' _ (by decide)

theorem listedUrls_lastLine (currentDate : Str) (hdate : '\n' ∉ currentDate) :
    listedUrls ("*This guide is continuously updated to maintain the quality and consistency of the FastApps blog. Last updated: ".toList
      ++ currentDate ++ ['*']) = [] :=
  listedUrls_of_line _ (lastLine_no_newline currentDate hdate) (lastLine_no_url currentDate)

theorem headerLine_no_newline (n : Nat) :
    '\n' ∉ "### 📝 Published Posts (".toList ++ (Nat.repr n).toList ++ " posts)".toList :=
  not_mem_append_of _ _ _ (not_mem_append_of _ _ _ (by decide)
    (fun hc => (repr_chars _ _ hc).1 rfl)) (by decide)

theorem headerLine_no_url (n : Nat) :
    urlOfLine ("### 📝 Published Posts (".toList ++ (Nat.repr n).toList ++ " posts)".toList)
      = none :=
  urlOfLine_of_ne '#' _ (by decide)

theorem updateReadmeBlog_listedUrls (parseDate : Str → Option Int) (formatDate : Str → Str)
    (guideText currentDate : Str) (blogPosts : List PostRecord)
    (hguide : listedUrls guideText = []) (hdate : '\n' ∉ currentDate)
    (hlist : ∀ p ∈ blogPosts, isListable formatDate p) :
    ∃ text, updateReadmeBlog parseDate formatDate guideText currentDate blogPosts = some text ∧
      listedUrls text = (sortedPosts parseDate blogPosts).map (fun p => p.url) := by
  have hperm : (sortedPosts parseDate blogPosts).Perm blogPosts := arraySort_perm _ _
  have hlist2 : ∀ p ∈ sortedPosts parseDate blogPosts, isListable formatDate p :=
    fun p hp => hlist p (hperm.mem_iff.mp hp)
  obtain ⟨ls, hr, hfree, hurls⟩ :=
    renderPosts_lines formatDate (sortedPosts parseDate blogPosts) hlist2 0
  unfold updateReadmeBlog postListing
  by_cases hlen : (sortedPosts parseDate blogPosts).length > 0
  · rw [if_pos hlen, hr]
    refine ⟨_, rfl, ?_⟩
    have hform : guideText ++
          ("\n### 📝 Published Posts (".toList
              ++ (Nat.repr (sortedPosts parseDate blogPosts).length).toList
              ++ " posts)\n\n".toList ++ (ls.map (fun l => l ++ ['\n'])).flatten)
          ++ "\n---\n\n*This guide is continuously updated to maintain the quality and consistency of the FastApps blog. Last updated: ".toList
          ++ currentDate ++ ['*']
        = guideText ++ '\n' ::
            (((["### 📝 Published Posts (".toList
                  ++ (Nat.repr (sortedPosts parseDate blogPosts).length).toList
                  ++ " posts)".toList, []] ++ ls ++ [[], "---".toList, []]).map
                (fun l => l ++ ['\n'])).flatten
              ++ ("*This guide is continuously updated to maintain the quality and consistency of the FastApps blog. Last updated: ".toList
                ++ currentDate ++ ['*'])) := by
      simp [List.append_assoc]
    beta_reduce
    rw [hform, listedUrls_append, hguide, List.nil_append, listedUrls_lines,
      listedUrls_lastLine currentDate hdate, List.append_nil, List.filterMap_append,
      List.filterMap_append, hurls]
    · have h0 : urlOfLine [] = none := by decide
      have h1 : urlOfLine "---".toList = none := by decide
      simp only [List.filterMap_cons, List.filterMap_nil, headerLine_no_url, h0, h1,
        List.nil_append, List.append_nil]
    · intro l hl
      rcases List.mem_append.mp hl with h | h
      · rcases List.mem_append.mp h with h | h
        · rcases List.mem_cons.mp h with h | h
          · rw [h]; exact headerLine_no_newline _
          · rw [List.mem_singleton.mp h]; exact List.not_mem_nil _
        · exact hfree l h
      · have hd : ∀ x ∈ ([[], "---".toList, []] : List Str), '\n' ∉ x := by decide
        exact hd l h
  · rw [if_neg hlen]
    have hnil : sortedPosts parseDate blogPosts = [] := by
      cases hs : sortedPosts parseDate blogPosts with
      | nil => rfl
      | cons p ps => rw [hs] at hlen; exact absurd (Nat.succ_pos _) hlen
    refine ⟨_, rfl, ?_⟩
    have hform : guideText ++ "\n### 📝 Published Posts\n\n*No blog posts found.*\n\n".toList
          ++ "\n---\n\n*This guide is continuously updated to maintain the quality and consistency of the FastApps blog. Last updated: ".toList
          ++ currentDate ++ ['*']
        = guideText ++ '\n' ::
            (((["### 📝 Published Posts".toList, [], "*No blog posts found.*".toList, [], [],
                  "---".toList, []]).map (fun l => l ++ ['\n'])).flatten
              ++ ("*This guide is continuously updated to maintain the quality and consistency of the FastApps blog. Last updated: ".toList
                ++ currentDate ++ ['*'])) := by
      simp [List.append_assoc]
    beta_reduce
    rw [hform, listedUrls_append, hguide, List.nil_append, listedUrls_lines,
      listedUrls_lastLine currentDate hdate, List.append_nil, hnil]
    · rfl
    · decide

theorem sortedPosts_order (parseDate : Str → Option Int) (blogPosts : List PostRecord)
    (hdates : ∀ p ∈ blogPosts, (postTime parseDate p).isSome = true) :
    (sortedPosts parseDate blogPosts).Perm blogPosts ∧
      (sortedPosts parseDate blogPosts).Pairwise
        (fun p q => ∀ tp tq, postTime parseDate p = some tp →
          postTime parseDate q = some tq → tq ≤ tp) ∧
      (∀ t : Int,
        (sortedPosts parseDate blogPosts).filter
            (fun p => decide (postTime parseDate p = some t))
          = blogPosts.filter (fun p => decide (postTime parseDate p = some t))) := by
  have hperm : (sortedPosts parseDate blogPosts).Perm blogPosts := arraySort_perm _ _
  refine ⟨hperm, ?_, ?_⟩
  · have hs : (sortedPosts parseDate blogPosts).Pairwise
        (fun a b => dateCompare parseDate a b ≤ 0) := by
      refine arraySort_pairwise (dateCompare parseDate)
        (fun p => ∃ t, postTime parseDate p = some t) ?_ ?_ blogPosts
        (fun p hp => Option.isSome_iff_exists.mp (hdates p hp))
      · rintro a b ⟨ta, ha⟩ ⟨tb, hb⟩
        rw [dateCompare_of_times parseDate a b ta tb ha hb,
          dateCompare_of_times parseDate b a tb ta hb ha]
        omega
      · rintro a b c ⟨ta, ha⟩ ⟨tb, hb⟩ ⟨tc, hc⟩
        rw [dateCompare_of_times parseDate a b ta tb ha hb,
          dateCompare_of_times parseDate b c tb tc hb hc,
          dateCompare_of_times parseDate a c ta tc ha hc]
        omega
    refine hs.imp ?_
    intro p q hpq tp tq hp hq
    rw [dateCompare_of_times parseDate p q tp tq hp hq] at hpq
    omega
  · intro t
    have hsub : (blogPosts.filter (fun p => decide (postTime parseDate p = some t))).Sublist
        (sortedPosts parseDate blogPosts) := by
      refine arraySort_stable (dateCompare parseDate) ?_ (List.filter_sublist _)
      rw [List.pairwise_iff_forall_sublist]
      intro a b hab
      have ha : a ∈ blogPosts.filter (fun p => decide (postTime parseDate p = some t)) :=
        hab.subset (List.mem_cons_self _ _)
      have hb : b ∈ blogPosts.filter (fun p => decide (postTime parseDate p = some t)) :=
        hab.subset (List.mem_cons_of_mem _ (List.mem_cons_self _ _))
      have hta : postTime parseDate a = some t := by simpa using (List.mem_filter.mp ha).2
      have htb : postTime parseDate b = some t := by simpa using (List.mem_filter.mp hb).2
      rw [dateCompare_of_times parseDate a b t t hta htb]
      omega
    have hsub2 := hsub.filter (fun p => decide (postTime parseDate p = some t))
    rw [List.filter_filter] at hsub2
    simp only [Bool.and_self] at hsub2
    have hlen := (hperm.filter (fun p => decide (postTime parseDate p = some t))).length_eq
    exact (hsub2.eq_of_length hlen.symm).symm

theorem postTime_of_calendar (parseDate : Str → Option Int)
    (hparse : ∀ s t, isoDateOnly s = some t → parseDate s = some t) (p : PostRecord)
    (hp : (isoDateOnly (dateString p.date)).isSome = true) :
    postTime parseDate p = isoDateOnly (dateString p.date) := by
  obtain ⟨t, ht⟩ := Option.isSome_iff_exists.mp hp
  unfold postTime
  rw [ht]
  exact hparse _ _ ht

theorem sortedPosts_calendar (parseDate : Str → Option Int)
    (hparse : ∀ s t, isoDateOnly s = some t → parseDate s = some t)
    (blogPosts : List PostRecord)
    (hcal : ∀ p ∈ blogPosts, (isoDateOnly (dateString p.date)).isSome = true) :
    (sortedPosts parseDate blogPosts).Pairwise
        (fun p q => ∃ tp tq, isoDateOnly (dateString p.date) = some tp ∧
          isoDateOnly (dateString q.date) = some tq ∧ tq ≤ tp) ∧
      (∀ t : Int,
        (sortedPosts parseDate blogPosts).filter
            (fun p => decide (isoDateOnly (dateString p.date) = some t))
          = blogPosts.filter (fun p => decide (isoDateOnly (dateString p.date) = some t))) := by
  have hdates : ∀ p ∈ blogPosts, (postTime parseDate p).isSome = true := by
    intro p hp
    rw [postTime_of_calendar parseDate hparse p (hcal p hp)]
    exact hcal p hp
  obtain ⟨hperm, hpair, hstable⟩ := sortedPosts_order parseDate blogPosts hdates
  refine ⟨?_, ?_⟩
  · refine hpair.imp_of_mem ?_
    intro p q hp hq hpq
    have hp2 := hcal p (hperm.mem_iff.mp hp)
    have hq2 := hcal q (hperm.mem_iff.mp hq)
    obtain ⟨tp, htp⟩ := Option.isSome_iff_exists.mp hp2
    obtain ⟨tq, htq⟩ := Option.isSome_iff_exists.mp hq2
    refine ⟨tp, tq, htp, htq, hpq tp tq ?_ ?_⟩
    · rw [postTime_of_calendar parseDate hparse p hp2, htp]
    · rw [postTime_of_calendar parseDate hparse q hq2, htq]
  · intro t
    have h1 : (sortedPosts parseDate blogPosts).filter
          (fun p => decide (isoDateOnly (dateString p.date) = some t))
        = (sortedPosts parseDate blogPosts).filter
          (fun p => decide (postTime parseDate p = some t)) := by
      apply List.filter_congr
      intro p hp
      rw [postTime_of_calendar parseDate hparse p (hcal p (hperm.mem_iff.mp hp))]
    have h2 : blogPosts.filter (fun p => decide (isoDateOnly (dateString p.date) = some t))
        = blogPosts.filter (fun p => decide (postTime parseDate p = some t)) := by
      apply List.filter_congr
      intro p hp
      rw [postTime_of_calendar parseDate hparse p (hcal p hp)]
    rw [h1, h2]
    exact hstable t

theorem updateReadmeBlog_text (parseDate : Str → Option Int) (formatDate : Str → Str)
    (guideText currentDate : Str) (blogPosts : List PostRecord)
    (htags : ∀ p ∈ blogPosts, ∃ items, p.tags = Value.arr items) :
    updateReadmeBlog parseDate formatDate guideText currentDate blogPosts
      = some (guideText
          ++ (if 0 < blogPosts.length then
                "\n### 📝 Published Posts (".toList ++ (Nat.repr blogPosts.length).toList
                  ++ " posts)\n\n".toList
                  ++ ((sortedPosts parseDate blogPosts).enum.map (fun entry =>
                      ((entryLines formatDate entry.1 entry.2).map
                        (fun l => l ++ ['\n'])).flatten)).flatten
              else "\n### 📝 Published Posts\n\n*No blog posts found.*\n\n".toList)
          ++ "\n---\n\n*This guide is continuously updated to maintain the quality and consistency of the FastApps blog. Last updated: ".toList
          ++ currentDate ++ ['*']) := by
  have hperm : (sortedPosts parseDate blogPosts).Perm blogPosts := arraySort_perm _ _
  have htags2 : ∀ p ∈ sortedPosts parseDate blogPosts, ∃ items, p.tags = Value.arr items :=
    fun p hp => htags p (hperm.mem_iff.mp hp)
  unfold updateReadmeBlog postListing
  rw [renderPosts_eq_entries formatDate _ htags2 0, hperm.length_eq]
  by_cases hlen : 0 < blogPosts.length
  · rw [if_pos hlen, if_pos hlen]
    rfl
  · rw [if_neg hlen, if_neg hlen]
    rfl

theorem isListable_fallbackRecord (formatDate : Str → Str) (today slug : Str)
    (hslug : '\n' ∉ slug) (htitle : '\n' ∉ humanizeSlug slug)
    (hformat : '\n' ∉ formatDate today) :
    isListable formatDate (fallbackRecord today slug) := by
  refine ⟨⟨[], rfl, List.not_mem_nil _⟩, htitle, ?_, hformat, ?_, List.not_mem_nil _⟩
  · exact not_mem_append_of _ _ _ (by decide) hslug
  · show '\n' ∉ "FastApps Team".toList
    decide

/-! ## Claim on the order of the listing -/

/-- C10: for posts with calendar dates, read by the host as ECMAScript prescribes for the form
`YYYY-MM-DD`, and with tags that are arrays, `updateReadmeBlog` returns the guide: the fixed
text, the listing and the closing line, where the listing of a non-empty sequence is its
heading followed by the entry of each post of a sequence `listed`, numbered from 1; `listed`
holds the same posts as the scan, in descending order of date, and the posts of one date
stand in it in their original order; when the fixed text has no url line and neither the date
of the run nor a field of a post holds a newline, the url lines read back from the guide are
the urls of `listed`, in that order; posts dated 2024-01-01, 2024-03-01, 2024-02-01 are
listed in the order March, February, January. -/
theorem updateReadmeBlog_lists_descending_stable
    (parseDate : Str → Option Int) (formatDate : Str → Str) (guideText currentDate : Str)
    (blogPosts : List PostRecord)
    (hparse : ∀ s t, isoDateOnly s = some t → parseDate s = some t)
    (hcal : ∀ p ∈ blogPosts, (isoDateOnly (dateString p.date)).isSome = true)
    (htags : ∀ p ∈ blogPosts, ∃ items, p.tags = Value.arr items) :
    (∃ listed : List PostRecord,
      updateReadmeBlog parseDate formatDate guideText currentDate blogPosts
        = some (guideText
            ++ (if 0 < blogPosts.length then
                  "\n### 📝 Published Posts (".toList ++ (Nat.repr blogPosts.length).toList
                    ++ " posts)\n\n".toList
                    ++ (listed.enum.map (fun entry =>
                        ((entryLines formatDate entry.1 entry.2).map
                          (fun l => l ++ ['\n'])).flatten)).flatten
                else "\n### 📝 Published Posts\n\n*No blog posts found.*\n\n".toList)
            ++ "\n---\n\n*This guide is continuously updated to maintain the quality and consistency of the FastApps blog. Last updated: ".toList
            ++ currentDate ++ ['*']) ∧
      listed.Perm blogPosts ∧
      listed.Pairwise
        (fun p q => ∃ tp tq, isoDateOnly (dateString p.date) = some tp ∧
          isoDateOnly (dateString q.date) = some tq ∧ tq ≤ tp) ∧
      (∀ t : Int,
        listed.filter (fun p => decide (isoDateOnly (dateString p.date) = some t))
          = blogPosts.filter (fun p => decide (isoDateOnly (dateString p.date) = some t))) ∧
      (listedUrls guideText = [] → '\n' ∉ currentDate →
        (∀ p ∈ blogPosts, isListable formatDate p) →
        (updateReadmeBlog parseDate formatDate guideText currentDate blogPosts).map listedUrls
          = some (listed.map (fun p => p.url)))) ∧
    (listedUrls guideText = [] → '\n' ∉ currentDate →
      (∀ s ∈ ["2024-01-01".toList, "2024-03-01".toList, "2024-02-01".toList],
        '\n' ∉ formatDate s) →
      (updateReadmeBlog parseDate formatDate guideText currentDate
          [fallbackRecord "2024-01-01".toList "january".toList,
           fallbackRecord "2024-03-01".toList "march".toList,
           fallbackRecord "2024-02-01".toList "february".toList]).map listedUrls
        = some ["/blog/march".toList, "/blog/february".toList, "/blog/january".toList]) := by
  refine ⟨⟨sortedPosts parseDate blogPosts,
    updateReadmeBlog_text parseDate formatDate guideText currentDate blogPosts htags,
    arraySort_perm _ _,
    (sortedPosts_calendar parseDate hparse blogPosts hcal).1,
    (sortedPosts_calendar parseDate hparse blogPosts hcal).2, ?_⟩, ?_⟩
  · intro hguide hdate hlist
    obtain ⟨text, htext, hurls⟩ := updateReadmeBlog_listedUrls parseDate formatDate guideText
      currentDate blogPosts hguide hdate hlist
    rw [htext, Option.map_some', hurls]
  · intro hguide hdate hformat
    have hlist : ∀ p ∈ [fallbackRecord "2024-01-01".toList "january".toList,
        fallbackRecord "2024-03-01".toList "march".toList,
        fallbackRecord "2024-02-01".toList "february".toList], isListable formatDate p := by
      intro p hp
      simp only [List.mem_cons, List.mem_singleton, List.not_mem_nil, or_false] at hp
      rcases hp with hp | hp | hp
      · rw [hp]
        exact isListable_fallbackRecord formatDate _ _ (by decide) (by decide)
          (hformat _ (by decide))
      · rw [hp]
        exact isListable_fallbackRecord formatDate _ _ (by decide) (by decide)
          (hformat _ (by decide))
      · rw [hp]
        exact isListable_fallbackRecord formatDate _ _ (by decide) (by decide)
          (hformat _ (by decide))
    obtain ⟨text, htext, hurls⟩ := updateReadmeBlog_listedUrls parseDate formatDate guideText
      currentDate _ hguide hdate hlist
    rw [htext, Option.map_some', hurls]
    have h1 : parseDate "2024-01-01".toList = some 1704067200000 := hparse _ _ (by decide)
    have h2 : parseDate "2024-02-01".toList = some 1706745600000 := hparse _ _ (by decide)
    have h3 : parseDate "2024-03-01".toList = some 1709251200000 := hparse _ _ (by decide)
    have t1 : ∀ s, postTime parseDate (fallbackRecord "2024-01-01".toList s)
        = some 1704067200000 := fun _ => h1
    have t2 : ∀ s, postTime parseDate (fallbackRecord "2024-02-01".toList s)
        = some 1706745600000 := fun _ => h2
    have t3 : ∀ s, postTime parseDate (fallbackRecord "2024-03-01".toList s)
        = some 1709251200000 := fun _ => h3
    simp only [sortedPosts, arraySort, sortInsert, dateCompare, t1, t2, t3]
    decide

/-- Witness for C10: the posts of 1 January, 1 March and 1 February, under the parser of the
`YYYY-MM-DD` form, with the date string itself as the formatted date. -/
theorem updateReadmeBlog_lists_descending_stable_witness :
    (∀ p ∈ [fallbackRecord "2024-01-01".toList "january".toList,
          fallbackRecord "2024-03-01".toList "march".toList,
          fallbackRecord "2024-02-01".toList "february".toList],
        (isoDateOnly (dateString p.date)).isSome = true) ∧
      (updateReadmeBlog isoDateOnly (fun s => s) "# Guide\n\n".toList "May 5, 2024".toList
          [fallbackRecord "2024-01-01".toList "january".toList,
           fallbackRecord "2024-03-01".toList "march".toList,
           fallbackRecord "2024-02-01".toList "february".toList]).map listedUrls
        = some ["/blog/march".toList, "/blog/february".toList, "/blog/january".toList] :=
  ⟨by decide,
   (updateReadmeBlog_lists_descending_stable isoDateOnly (fun s => s) "# Guide\n\n".toList
      "May 5, 2024".toList
      [fallbackRecord "2024-01-01".toList "january".toList,
       fallbackRecord "2024-03-01".toList "march".toList,
       fallbackRecord "2024-02-01".toList "february".toList]
      (fun _ _ h => h) (by decide)
      (fun p hp => by
        simp only [List.mem_cons, List.mem_singleton, List.not_mem_nil, or_false] at hp
        rcases hp with hp | hp | hp <;> exact ⟨[], by rw [hp]; rfl⟩)).2
      (by decide) (by decide) (by decide)⟩

end GenerateSitemap
